import Mathlib

/-!
# Verification of the stefan-devnets split calculators

Shallow embedding of `scripts/split-calculator-simple.py` and
`scripts/split-calculator.py`.  Python `float` arithmetic is modelled by `ℚ`
(exact for the dyadic constants used in every concrete configuration below),
Python `int` by `ℤ`.  Python's stable `list.sort`/`sorted` is modelled by a
stable insertion sort, and dict iteration follows insertion order as in
Python 3.7+.
-/

/- Batteries seals the `Rat` arithmetic definitions against unfolding, which
would keep `decide` from evaluating the pipelines on concrete
configurations; restore the default reducibility. -/
set_option allowUnsafeReducibility true in
attribute [semireducible] Rat.ofScientific Rat.mul Rat.inv Rat.add Rat.sub

namespace SplitCalc

/-! ## Python numeric primitives -/

/-- Python `int(x)` applied to a float: truncation toward zero. -/
def pyint (q : ℚ) : ℤ := if 0 ≤ q then ⌊q⌋ else ⌈q⌉

/-- Python `round(x)` applied to a float with no second argument:
round half to even ("banker's rounding"). -/
def pyround (q : ℚ) : ℤ :=
  let f := ⌊q⌋
  let r := q - f
  if r < 1/2 then f
  else if 1/2 < r then f + 1
  else if Even f then f else f + 1

/-! ## Strings

Python compares strings lexicographically by Unicode code point. Lean's
built-in `String` order does not reduce in the kernel, so we model the same
order on the underlying character list. -/

/-- Lexicographic strict order on character lists by code point. -/
def charListLt : List Char → List Char → Bool
  | [], [] => false
  | [], _ :: _ => true
  | _ :: _, [] => false
  | a :: as, b :: bs =>
    if a.val < b.val then true
    else if b.val < a.val then false
    else charListLt as bs

/-- Python `a < b` on strings. -/
def strLt (a b : String) : Bool := charListLt a.data b.data

/-- Python `a <= b` on strings. -/
def strLe (a b : String) : Bool := strLt a b || a = b

/-! ## Stable sort

Python's `sort`/`sorted` are stable.  `insertStable bf x l` puts `x` in
front of the first `y` with `bf x y = true`; folding from the right, an
element is inserted before the already-placed elements that came after it in
the original list, so taking `bf x y = (key y ≤ key x)` models a stable
descending sort (and `bf x y = (key x ≤ key y)` an ascending one). -/

def insertStable (bf : α → α → Bool) (x : α) : List α → List α
  | [] => [x]
  | y :: ys => if bf x y then x :: y :: ys else y :: insertStable bf x ys

def stableSort (bf : α → α → Bool) (l : List α) : List α :=
  l.foldr (insertStable bf) []

/-! ## Common data -/

/-- The three node types hard-coded in both scripts. -/
inductive NodeType
  | default
  | full
  | super
deriving DecidableEq, Repr

/-- The string name of a node type (the dict keys in the scripts). -/
def NodeType.tname : NodeType → String
  | .default => "default"
  | .full => "full"
  | .super => "super"

/-- Iteration order of the node-type dicts in both scripts. -/
def tiersList : List NodeType := [.default, .full, .super]

/-- A final (integer) allocation: `NodeAllocation` in the simple script and
post-rounding `Allocation` in the percentage script have the same fields. -/
structure Alloc where
  clName : String
  elName : String
  nodeType : NodeType
  machines : ℤ
  validators : ℤ
deriving DecidableEq, Repr

/-- Sum of the `validators` field over a list of allocations. -/
def listValidatorSum (l : List Alloc) : ℤ := (l.map Alloc.validators).sum

/-- Sum of the `machines` field over a list of allocations. -/
def listMachineSum (l : List Alloc) : ℤ := (l.map Alloc.machines).sum

/-- `largest.validators += d` for `largest` at position `i`:
add `d` to the validators of the `i`-th element. -/
def addValidatorsAt : List Alloc → ℕ → ℤ → List Alloc
  | [], _, _ => []
  | a :: tl, 0, d => { a with validators := a.validators + d } :: tl
  | a :: tl, Nat.succ n, d => a :: addValidatorsAt tl n d

/-- The maximal `machines` value of a list (`0` for the empty list, which the
scripts never query). -/
def maxMachines : List Alloc → ℤ
  | [] => 0
  | a :: tl => tl.foldl (fun m b => max m b.machines) a.machines

/-- Python `max(l, key=lambda a: a.machines)` returns the first element
attaining the maximum; this is its index. -/
def firstMaxMachinesIdx (l : List Alloc) : ℕ :=
  l.findIdx fun a => a.machines = maxMachines l

/-! ## split-calculator-simple.py : configuration and core logic -/

/-- The module-level configuration constants of `split-calculator-simple.py`
(`TOTAL_VALIDATORS`, `MACHINE_COUNTS`, `CL_CLIENTS`, `EL_CLIENTS`,
`VALIDATOR_DISTRIBUTION`).  Client tables are in dict insertion order. -/
structure SimpleConfig where
  totalValidators : ℤ
  machineCounts : NodeType → ℕ
  clClients : List (String × ℚ)
  elClients : List (String × ℚ)
  validatorDistribution : NodeType → ℚ

/-- One (consensus client, execution client) combination together with its
shares; `idx` records the position in the generation order of the nested
`for cl ... for el ...` loops (used only for stating stability). -/
structure Cell where
  clName : String
  elName : String
  clShare : ℚ
  elShare : ℚ
  idx : ℕ
deriving DecidableEq, Repr

/-- The client combinations, in the order the nested loops generate them. -/
def combos (cfg : SimpleConfig) : List Cell :=
  ((cfg.clClients.flatMap fun c => cfg.elClients.map fun e => (c, e))).enum.map
    fun p => ⟨p.2.1.1, p.2.2.1, p.2.1.2, p.2.2.2, p.1⟩

/-- `validators_by_type[node_type] = int(TOTAL_VALIDATORS * VALIDATOR_DISTRIBUTION[node_type])`. -/
def validatorsByType (cfg : SimpleConfig) (t : NodeType) : ℤ :=
  pyint ((cfg.totalValidators : ℚ) * cfg.validatorDistribution t)

/-- `combination_weight = cl_pct * el_pct`. -/
def comboWeight (c : Cell) : ℚ := c.clShare * c.elShare

/-- `ideal_machines = type_machines * combination_weight`. -/
def idealMachines (cfg : SimpleConfig) (t : NodeType) (c : Cell) : ℚ :=
  (cfg.machineCounts t : ℚ) * comboWeight c

/-- The fractional remainder `ideal - int(ideal)` used in the second pass. -/
def fracRemainder (cfg : SimpleConfig) (t : NodeType) (c : Cell) : ℚ :=
  idealMachines cfg t c - (pyint (idealMachines cfg t c) : ℚ)

/-- Comparator of `sorted(..., key=lambda x: x[1], reverse=True)`:
descending by ideal machine count, stable. -/
def bfIdeal (cfg : SimpleConfig) (t : NodeType) (x y : Cell) : Bool :=
  decide (idealMachines cfg t y ≤ idealMachines cfg t x)

/-- `sorted_combinations`. -/
def sortedCombinations (cfg : SimpleConfig) (t : NodeType) : List Cell :=
  stableSort (bfIdeal cfg t) (combos cfg)

/-- Comparator of `remainders.sort(key=lambda x: x[1], reverse=True)`:
descending by fractional remainder, stable. -/
def bfFrac (cfg : SimpleConfig) (t : NodeType) (x y : Cell) : Bool :=
  decide (fracRemainder cfg t y ≤ fracRemainder cfg t x)

/-- The `remainders` list after its sort. -/
def remaindersSorted (cfg : SimpleConfig) (t : NodeType) : List Cell :=
  stableSort (bfFrac cfg t) (sortedCombinations cfg t)

/-- `total_allocated` after the floor pass. -/
def flooredTotal (cfg : SimpleConfig) (t : NodeType) : ℤ :=
  ((sortedCombinations cfg t).map fun c => pyint (idealMachines cfg t c)).sum

/-- `remaining = type_machines - total_allocated`. -/
def remainingMachines (cfg : SimpleConfig) (t : NodeType) : ℤ :=
  (cfg.machineCounts t : ℤ) - flooredTotal cfg t

/-- The `(cl, el)` keys awarded one extra machine in the second pass
(`for i in range(remaining): if i < len(remainders): ... += 1`; dict keys of
the cross product are distinct, so each key is awarded at most once). -/
def awardedKeys (cfg : SimpleConfig) (t : NodeType) : List (String × String) :=
  if 0 < remainingMachines cfg t then
    ((remaindersSorted cfg t).take (remainingMachines cfg t).toNat).map
      fun c => (c.clName, c.elName)
  else []

/-- `allocated_machines[(cl, el)]` after both passes. -/
def machinesOfCell (cfg : SimpleConfig) (t : NodeType) (c : Cell) : ℤ :=
  pyint (idealMachines cfg t c) +
    (if (c.clName, c.elName) ∈ awardedKeys cfg t then 1 else 0)

/-- `validators = int(type_validators * combination_weight)`. -/
def cellValidators (cfg : SimpleConfig) (t : NodeType) (c : Cell) : ℤ :=
  pyint ((validatorsByType cfg t : ℚ) * comboWeight c)

/-- The allocations one node type contributes in `calculate_allocations`
(`allocated_machines.items()` iterates in `sorted_combinations` order, the
insertion order of the floor pass; cells with `machines == 0` are skipped). -/
def tierAllocs (cfg : SimpleConfig) (t : NodeType) : List Alloc :=
  if cfg.machineCounts t = 0 then []
  else
    (sortedCombinations cfg t).filterMap fun c =>
      if 0 < machinesOfCell cfg t c then
        some ⟨c.clName, c.elName, t, machinesOfCell cfg t c, cellValidators cfg t c⟩
      else none

/-- `calculate_allocations()`: the `for node_type in MACHINE_COUNTS` loop
appends each tier's allocations in turn. -/
def calculateAllocations (cfg : SimpleConfig) : List Alloc :=
  tiersList.flatMap (tierAllocs cfg)

/-- The proportional adjustment loop of `optimize_validator_distribution`:
`adjustment = round(diff * (a.machines / total_machines))` added to each
allocation of the node type, with `diff` and `total_machines` computed on the
whole group. -/
def adjustTier (cfg : SimpleConfig) (t : NodeType) (l : List Alloc) : List Alloc :=
  l.map fun a =>
    { a with validators := a.validators +
        pyround ((validatorsByType cfg t - listValidatorSum l : ℤ) *
          ((a.machines : ℚ) / (listMachineSum l : ℚ))) }

/-- The body of `optimize_validator_distribution` for one node type's
allocations (`type_allocations`): skip empty groups and groups already at
target, otherwise apply the proportional adjustment and, when a residual
`final_diff` is left, add it to `max(type_allocations, key=lambda a:
a.machines)` — the first element with maximal machine count. -/
def optimizeTier (cfg : SimpleConfig) (t : NodeType) (l : List Alloc) : List Alloc :=
  if l = [] then l
  else if listValidatorSum l = validatorsByType cfg t then l
  else if validatorsByType cfg t - listValidatorSum (adjustTier cfg t l) = 0 then
    adjustTier cfg t l
  else
    addValidatorsAt (adjustTier cfg t l) (firstMaxMachinesIdx (adjustTier cfg t l))
      (validatorsByType cfg t - listValidatorSum (adjustTier cfg t l))

/-- `optimize_validator_distribution`: groups by node type (`by_type[t]` is
the sublist of allocations with that type, in order), adjusts each group in
place and returns the same list.  `calculate_allocations` emits allocations
grouped by node type in `tiersList` order, so the returned list is the
concatenation of the adjusted groups. -/
def optimizeValidatorDistribution (cfg : SimpleConfig) (allocs : List Alloc) : List Alloc :=
  tiersList.flatMap fun t => optimizeTier cfg t (allocs.filter fun a => a.nodeType = t)

/-- The allocation list of a full run of the simple script. -/
def simpleFinal (cfg : SimpleConfig) : List Alloc :=
  optimizeValidatorDistribution cfg (calculateAllocations cfg)

/-! ## Output renderer (identical in both scripts)

`generate_output` and `generate_terraform_output` sort by the key
`(cl_name, el_name, node_type)` ascending, skip allocations with
`machines == 0` or non-positive validators (`validators <= 0` in the simple
script, `validators < 1` in the other — identical on integers), and assign
the running `[validator_start, validator_end)` ranges. -/

/-- One emitted Terraform `variable` block. -/
structure Block where
  clName : String
  elName : String
  nodeType : NodeType
  machines : ℤ
  validators : ℤ
  vStart : ℤ
  vEnd : ℤ
deriving DecidableEq, Repr

/-- Ascending comparison on the Python sort key `(a.cl_name, a.el_name, a.node_type)`. -/
def rendererBf (a b : Alloc) : Bool :=
  if a.clName = b.clName then
    if a.elName = b.elName then strLe a.nodeType.tname b.nodeType.tname
    else strLt a.elName b.elName
  else strLt a.clName b.clName

/-- The loop of `generate_output`, carrying `validator_start`. -/
def blockWalk : ℤ → List Alloc → List Block
  | _, [] => []
  | s, a :: tl =>
    if a.machines = 0 ∨ a.validators ≤ 0 then blockWalk s tl
    else
      { clName := a.clName, elName := a.elName, nodeType := a.nodeType,
        machines := a.machines, validators := a.validators,
        vStart := s, vEnd := s + a.validators } :: blockWalk (s + a.validators) tl

/-- The emitted blocks of `generate_output` / `generate_terraform_output`. -/
def renderBlocks (l : List Alloc) : List Block :=
  blockWalk 0 (stableSort rendererBf l)

/-- The allocations that survive the renderer's skip condition. -/
def emittedAllocs (l : List Alloc) : List Alloc :=
  l.filter fun a => decide (¬ (a.machines = 0 ∨ a.validators ≤ 0))

/-- `'' if node_type == 'default' else f'_{node_type}'`. -/
def varSuffix (t : NodeType) : String :=
  if t = NodeType.default then "" else "_" ++ t.tname

/-- `'' if node_type == 'default' else f'-{node_type}'`. -/
def nameSuffix (t : NodeType) : String :=
  if t = NodeType.default then "" else "-" ++ t.tname

/-- `variable_name` property. -/
def variableName (b : Block) : String :=
  b.clName.toLower ++ "_" ++ b.elName.toLower ++ varSuffix b.nodeType

/-- `config_name` property. -/
def configName (b : Block) : String :=
  b.clName.toLower ++ "-" ++ b.elName.toLower ++ nameSuffix b.nodeType

/-- The rendered text of one block (`\x7b`/`\x7d` denote the braces). -/
def blockText (b : Block) : String :=
  "variable \"" ++ variableName b ++ "\" \x7b\n" ++
  "  default = \x7b\n" ++
  "    name            = \"" ++ configName b ++ "\"\n" ++
  "    count           = " ++ toString b.machines ++ "\n" ++
  "    validator_start = " ++ toString b.vStart ++ "\n" ++
  "    validator_end   = " ++ toString b.vEnd ++ "\n" ++
  "  \x7d\n" ++
  "\x7d\n"

/-- The joined output text of all blocks. -/
def blocksText (bs : List Block) : String :=
  String.intercalate "\n" (bs.map blockText)

/-! ## Summary data

The summaries are modelled as the numeric data the scripts print (the
percentage formatting of `print` is presentation only). -/

/-- The numbers computed by `print_summary` of the simple script. -/
structure SimpleSummary where
  totalValidators : ℤ
  totalMachines : ℕ
  targetValidators : NodeType → ℤ
  actualValidators : NodeType → ℤ
  actualMachines : NodeType → ℤ
  totalValidatorsAllocated : ℤ
  totalMachinesAllocated : ℤ

/-- `print_summary(allocations)` of the simple script as data. -/
def simpleSummary (cfg : SimpleConfig) (allocs : List Alloc) : SimpleSummary where
  totalValidators := cfg.totalValidators
  totalMachines := (tiersList.map cfg.machineCounts).sum
  targetValidators := fun t => pyint ((cfg.totalValidators : ℚ) * cfg.validatorDistribution t)
  actualValidators := fun t => listValidatorSum (allocs.filter fun a => a.nodeType = t)
  actualMachines := fun t => listMachineSum (allocs.filter fun a => a.nodeType = t)
  totalValidatorsAllocated := listValidatorSum allocs
  totalMachinesAllocated := listMachineSum allocs

/-- A full run of the simple script's `main` (summary data plus the
generated output text). -/
def simpleRun (cfg : SimpleConfig) : SimpleSummary × String :=
  let fin := simpleFinal cfg
  (simpleSummary cfg fin, blocksText (renderBlocks fin))

/-! ## split-calculator.py : configuration and core logic -/

/-- The module-level configuration constants of `split-calculator.py`. -/
structure SplitConfig where
  totalValidators : ℤ
  baseValidatorsPerMachine : ℤ
  clClients : List (String × ℚ)
  elClients : List (String × ℚ)
  validatorDistribution : NodeType → ℚ
  machineDistribution : NodeType → ℚ

/-- `total_machines = TOTAL_VALIDATORS / BASE_VALIDATORS_PER_MACHINE`
(float division). -/
def totalMachinesQ (cfg : SplitConfig) : ℚ :=
  (cfg.totalValidators : ℚ) / (cfg.baseValidatorsPerMachine : ℚ)

/-- A fractional allocation produced by `calculate_allocations` of
`split-calculator.py`. -/
structure RawAlloc where
  clName : String
  elName : String
  nodeType : NodeType
  validators : ℚ
  machines : ℚ
deriving DecidableEq, Repr

/-- `calculate_allocations()`: the nested `for cl ... for el ... for node_type`
loops; `validators = (TOTAL * cl * el) * dist`, `machines = (total_machines *
cl * el) * machine_dist`. -/
def rawAllocations (cfg : SplitConfig) : List RawAlloc :=
  cfg.clClients.flatMap fun c =>
    cfg.elClients.flatMap fun e =>
      tiersList.map fun t =>
        { clName := c.1, elName := e.1, nodeType := t,
          validators := (cfg.totalValidators : ℚ) * c.2 * e.2 * cfg.validatorDistribution t,
          machines := totalMachinesQ cfg * c.2 * e.2 * cfg.machineDistribution t }

/-- `target_machines = round(total_machines * MACHINE_DISTRIBUTION[node_type])`. -/
def typeTargetMachines (cfg : SplitConfig) (t : NodeType) : ℤ :=
  pyround (totalMachinesQ cfg * cfg.machineDistribution t)

/-- Comparator of `type_allocations.sort(key=lambda a: a.machines, reverse=True)`. -/
def splitBf (x y : RawAlloc) : Bool := decide (y.machines ≤ x.machines)

/-- `by_type[t]` sorted by fractional machine count, descending, stable. -/
def sortedTypeAllocs (cfg : SplitConfig) (t : NodeType) : List RawAlloc :=
  stableSort splitBf ((rawAllocations cfg).filter fun a => a.nodeType = t)

/-- The threshold rounding of the standard branch: default nodes round up
from `0.4`, full/super from `0.7`; below the threshold force `0`. -/
def thresholdMachines (t : NodeType) (x : ℚ) : ℤ :=
  if t = NodeType.default then
    if (0.4 : ℚ) ≤ x then max 1 (pyround x) else 0
  else
    if (0.7 : ℚ) ≤ x then max 1 (pyround x) else 0

/-- The `diff > 0` adjustment: walk from the front, give one machine to each
zero-machine assignment whose (fractional) validators exceed 20 until the
deficit is gone. -/
def topUp : ℤ → List (RawAlloc × ℤ) → List (RawAlloc × ℤ)
  | _, [] => []
  | d, (a, m) :: tl =>
    if d ≤ 0 then (a, m) :: tl
    else if 20 < a.validators ∧ m = 0 then (a, 1) :: topUp (d - 1) tl
    else (a, m) :: topUp d tl

/-- The `diff < 0` adjustment walks from the back; `removeGo` is that walk on
the reversed list: zero out assignments with machines and (fractional)
validators below 50 until the excess is gone. -/
def removeGo : ℤ → List (RawAlloc × ℤ) → List (RawAlloc × ℤ)
  | _, [] => []
  | d, (a, m) :: tl =>
    if 0 ≤ d then (a, m) :: tl
    else if 0 < m ∧ a.validators < 50 then (a, 0) :: removeGo (d + 1) tl
    else (a, m) :: removeGo d tl

/-- The threshold assignments of the standard branch before the `diff`
adjustment. -/
def preAssignments (cfg : SplitConfig) (t : NodeType) : List (RawAlloc × ℤ) :=
  (sortedTypeAllocs cfg t).map fun a => (a, thresholdMachines t a.machines)

/-- `diff = target_machines - total_assigned` of the standard branch. -/
def assignDiff (cfg : SplitConfig) (t : NodeType) : ℤ :=
  typeTargetMachines cfg t - ((preAssignments cfg t).map Prod.snd).sum

/-- `machine_assignments` of `apply_intelligent_rounding` for one node type:
the small-target branch (`target <= 10`) gives one machine to each of the top
`target` allocations; the standard branch applies threshold rounding and then
the `diff` adjustment. -/
def machineAssignments (cfg : SplitConfig) (t : NodeType) : List (RawAlloc × ℤ) :=
  if typeTargetMachines cfg t ≤ 10 then
    (sortedTypeAllocs cfg t).enum.map fun p =>
      (p.2, if (p.1 : ℤ) < typeTargetMachines cfg t then 1 else 0)
  else if 0 < assignDiff cfg t then topUp (assignDiff cfg t) (preAssignments cfg t)
  else if assignDiff cfg t < 0 then
    (removeGo (assignDiff cfg t) (preAssignments cfg t).reverse).reverse
  else preAssignments cfg t

/-- `final_type_allocations`: assignments with `machines > 0`, validators
truncated to int. -/
def finTypeAllocs (cfg : SplitConfig) (t : NodeType) : List Alloc :=
  (machineAssignments cfg t).filterMap fun p =>
    if 0 < p.2 then
      some ⟨p.1.clName, p.1.elName, t, p.2, pyint p.1.validators⟩
    else none

/-- `orphaned_validators`: truncated validators of the zero-machine assignments. -/
def orphanedValidators (cfg : SplitConfig) (t : NodeType) : ℤ :=
  (((machineAssignments cfg t).filter fun p => decide (p.2 ≤ 0)).map
    fun p => pyint p.1.validators).sum

/-- `int(validators_per_allocation)` where `validators_per_allocation =
orphaned_validators / len(final_type_allocations)` (float division). -/
def orphanShare (o : ℤ) (n : ℕ) : ℤ := pyint ((o : ℚ) / (n : ℚ))

/-- The orphan redistribution block: if the pool is non-empty and some cell
survived, every survivor gains `int(orphaned / n)` and the first survivor
additionally gains the remainder (when positive). -/
def redistributeOrphans (o : ℤ) (fin : List Alloc) : List Alloc :=
  if 0 < o ∧ fin ≠ [] then
    if 0 < o - orphanShare o fin.length * (fin.length : ℤ) then
      addValidatorsAt
        (fin.map fun a => { a with validators := a.validators + orphanShare o fin.length })
        0 (o - orphanShare o fin.length * (fin.length : ℤ))
    else fin.map fun a => { a with validators := a.validators + orphanShare o fin.length }
  else fin

/-- `apply_intelligent_rounding`: the per-type results concatenated in
`NODE_TYPES` order. -/
def roundedAllocations (cfg : SplitConfig) : List Alloc :=
  tiersList.flatMap fun t =>
    redistributeOrphans (orphanedValidators cfg t) (finTypeAllocs cfg t)

/-- The truncated validator mass of one node type before redistribution:
`int(alloc.validators)` summed over all of the tier's assignments, surviving
and machine-less alike. -/
def truncatedTierSum (cfg : SplitConfig) (t : NodeType) : ℤ :=
  ((machineAssignments cfg t).map fun p => pyint p.1.validators).sum

/-- The numbers computed by `print_analysis` plus the shortfall warning of
`main` (`abs(total_allocated - TOTAL_VALIDATORS) > 10`). -/
structure SplitSummary where
  totalValidatorsTarget : ℤ
  actualValidators : NodeType → ℤ
  actualMachines : NodeType → ℤ
  totalValidatorsAllocated : ℤ
  totalMachinesAllocated : ℤ
  shortfallWarning : Bool

/-- `print_analysis` data (its `by_type` keeps only `machines > 0`). -/
def splitSummary (cfg : SplitConfig) (allocs : List Alloc) : SplitSummary :=
  let kept := allocs.filter fun a => decide (0 < a.machines)
  let vtot := listValidatorSum kept
  { totalValidatorsTarget := cfg.totalValidators
    actualValidators := fun t => listValidatorSum (kept.filter fun a => a.nodeType = t)
    actualMachines := fun t => listMachineSum (kept.filter fun a => a.nodeType = t)
    totalValidatorsAllocated := vtot
    totalMachinesAllocated := listMachineSum kept
    shortfallWarning := decide (10 < (vtot - cfg.totalValidators).natAbs) }

/-- A full run of `split-calculator.py`'s `main`. -/
def splitRun (cfg : SplitConfig) : SplitSummary × String :=
  let fin := roundedAllocations cfg
  (splitSummary cfg fin, blocksText (renderBlocks fin))

/-! ## Spec-side definitions (for refinement comparisons only) -/

/-- Modelled from the spec: a valid configuration of the simple script —
positive validator total, client and tier shares in `[0, 1]` summing to `1`.
The script itself performs no such validation; this predicate exists only to
compare its behaviour with the spec's claimed `ConfigurationError`. -/
def validSimpleConfig (cfg : SimpleConfig) : Bool :=
  decide (0 < cfg.totalValidators) &&
  decide ((cfg.clClients.map Prod.snd).sum = 1) &&
  decide ((cfg.elClients.map Prod.snd).sum = 1) &&
  decide ((tiersList.map cfg.validatorDistribution).sum = 1) &&
  cfg.clClients.all (fun c => decide (0 ≤ c.2 ∧ c.2 ≤ 1)) &&
  cfg.elClients.all (fun c => decide (0 ≤ c.2 ∧ c.2 ≤ 1)) &&
  tiersList.all fun t =>
    decide (0 ≤ cfg.validatorDistribution t ∧ cfg.validatorDistribution t ≤ 1)

/-- Ascending lexical order on `(cl, el)` name pairs. -/
def pairLe (a b : String × String) : Bool :=
  if a.1 = b.1 then strLe a.2 b.2 else strLt a.1 b.1

/-- The ranking claimed by the spec for the largest-remainder pass:
descending fractional remainder, ties by descending raw value, then by the
lexical order of the `(cl, el)` pair. -/
def specLexBf (cfg : SimpleConfig) (t : NodeType) (x y : Cell) : Bool :=
  decide (fracRemainder cfg t y < fracRemainder cfg t x) ||
  (decide (fracRemainder cfg t y = fracRemainder cfg t x) &&
    (decide (idealMachines cfg t y < idealMachines cfg t x) ||
      (decide (idealMachines cfg t y = idealMachines cfg t x) &&
        pairLe (x.clName, x.elName) (y.clName, y.elName))))

/-- The cells ranked as the spec describes. -/
def specLexRanking (cfg : SimpleConfig) (t : NodeType) : List Cell :=
  stableSort (specLexBf cfg t) (combos cfg)

/-- The strict ranking order the code actually realises: descending
fractional remainder, ties by descending ideal value, remaining ties by
generation order (`idx`). -/
def lexBefore (cfg : SimpleConfig) (t : NodeType) (x y : Cell) : Bool :=
  decide (fracRemainder cfg t y < fracRemainder cfg t x) ||
  (decide (fracRemainder cfg t y = fracRemainder cfg t x) &&
    (decide (idealMachines cfg t y < idealMachines cfg t x) ||
      (decide (idealMachines cfg t y = idealMachines cfg t x) &&
        decide (x.idx < y.idx))))

/-- The rank of a cell in the code's award order: the number of cells that
come strictly before it. -/
def lexRank (cfg : SimpleConfig) (t : NodeType) (c : Cell) : ℕ :=
  (combos cfg).countP fun d => lexBefore cfg t d c

/-! ## Range predicates for the renderer -/

/-- The blocks form a chain of ranges starting at `s`: each block starts
where the previous one ended and spans exactly its validator count. -/
def chainedFrom (s : ℤ) : List Block → Prop
  | [] => True
  | b :: tl => b.vStart = s ∧ b.vEnd = b.vStart + b.validators ∧ chainedFrom b.vEnd tl

/-- The end of the last range of a chain starting at `s`. -/
def endFrom (s : ℤ) : List Block → ℤ
  | [] => s
  | b :: tl => endFrom b.vEnd tl

/-! ## Concrete configurations used by witnesses and counterexamples

All share values are dyadic rationals, so float evaluation of the scripts on
these configurations is exact and agrees with the `ℚ` model. -/

/-- A valid configuration of the percentage script on which the per-tier
validator and machine sums miss their targets: two equal-weight client
combinations, five machines and five validators wanted on the default tier. -/
def cfgSplitShort : SplitConfig where
  totalValidators := 5
  baseValidatorsPerMachine := 1
  clClients := [("alpha", 1/2), ("beta", 1/2)]
  elClients := [("geth", 1)]
  validatorDistribution := fun t => if t = NodeType.default then 1 else 0
  machineDistribution := fun t => if t = NodeType.default then 1 else 0

/-- A valid configuration of the simple script on which the correction pass
drives one allocation's validator count negative: 13 validators over eight
equal-weight combinations with one machine each. -/
def cfgSimple13 : SimpleConfig where
  totalValidators := 13
  machineCounts := fun t => if t = NodeType.default then 8 else 0
  clClients := [("c1", 1/4), ("c2", 1/4), ("c3", 1/4), ("c4", 1/4)]
  elClients := [("e1", 1/2), ("e2", 1/2)]
  validatorDistribution := fun t => if t = NodeType.default then 1 else 0

/-- A valid configuration of the simple script with a largest-remainder tie
between two equal-weight combinations whose configuration order differs from
their lexical order. -/
def cfgSimpleTie : SimpleConfig where
  totalValidators := 4
  machineCounts := fun t => if t = NodeType.default then 1 else 0
  clClients := [("zeta", 1/2), ("alpha", 1/2)]
  elClients := [("geth", 1)]
  validatorDistribution := fun t => if t = NodeType.default then 1 else 0

/-- A valid configuration of the simple script whose `full` tier has machine
count `0` but a positive validator share. -/
def cfgSimpleZeroTier : SimpleConfig where
  totalValidators := 10
  machineCounts := fun t => if t = NodeType.default then 2 else 0
  clClients := [("alpha", 1)]
  elClients := [("geth", 1)]
  validatorDistribution := fun t =>
    if t = NodeType.default then 1/2 else if t = NodeType.full then 1/2 else 0

/-- A malformed configuration (consensus shares sum to `1/2`) of the simple
script. -/
def cfgBadShares : SimpleConfig where
  totalValidators := 10
  machineCounts := fun t => if t = NodeType.default then 4 else 0
  clClients := [("alpha", 1/2)]
  elClients := [("geth", 1)]
  validatorDistribution := fun t => if t = NodeType.default then 1 else 0

/-- A valid configuration of the percentage script with a non-empty orphan
pool (three of twelve validators land on a machine-less combination) and two
surviving cells. -/
def cfgSplitOrphan : SplitConfig where
  totalValidators := 12
  baseValidatorsPerMachine := 6
  clClients := [("bb", 3/8), ("aa", 3/8), ("cc", 1/4)]
  elClients := [("geth", 1)]
  validatorDistribution := fun t => if t = NodeType.default then 1 else 0
  machineDistribution := fun t => if t = NodeType.default then 1 else 0

/-- A valid configuration of the percentage script whose `full` tier has
machine share `0` but half of the validators: the whole orphan pool of that
tier is dropped. -/
def cfgSplitDropped : SplitConfig where
  totalValidators := 4
  baseValidatorsPerMachine := 1
  clClients := [("alpha", 1)]
  elClients := [("geth", 1)]
  validatorDistribution := fun t =>
    if t = NodeType.default then 1/2 else if t = NodeType.full then 1/2 else 0
  machineDistribution := fun t => if t = NodeType.default then 1 else 0

/-! ## Theorems -/

theorem pyint_of_nonneg {q : ℚ} (h : 0 ≤ q) : pyint q = ⌊q⌋ := by
  simp [pyint, h]

theorem pyround_ge_floor (q : ℚ) : ⌊q⌋ ≤ pyround q := by
  unfold pyround
  dsimp only
  split
  · exact le_refl _
  · split
    · omega
    · split <;> omega

theorem pyround_le_floor_add_one (q : ℚ) : pyround q ≤ ⌊q⌋ + 1 := by
  unfold pyround
  dsimp only
  split
  · omega
  · split
    · omega
    · split <;> omega

theorem half_le_of_pyround_eq_add_one {q : ℚ} (h : pyround q = ⌊q⌋ + 1) :
    1/2 ≤ q - ⌊q⌋ := by
  unfold pyround at h
  dsimp only at h
  split at h
  · omega
  · rename_i h1; exact le_of_not_lt h1

theorem frac_le_half_of_pyround_eq_floor {q : ℚ} (h : pyround q = ⌊q⌋) :
    q - ⌊q⌋ ≤ 1/2 := by
  unfold pyround at h
  dsimp only at h
  split at h
  · rename_i h1; exact le_of_lt h1
  · split at h
    · omega
    · rename_i h2; exact le_of_not_lt h2

theorem even_of_pyround_eq_floor_of_half {q : ℚ} (h : pyround q = ⌊q⌋)
    (ht : q - ⌊q⌋ = 1/2) : Even ⌊q⌋ := by
  unfold pyround at h
  dsimp only at h
  rw [ht] at h
  norm_num at h
  exact h

theorem odd_of_pyround_eq_add_one_of_half {q : ℚ} (h : pyround q = ⌊q⌋ + 1)
    (ht : q - ⌊q⌋ = 1/2) : ¬ Even ⌊q⌋ := by
  unfold pyround at h
  dsimp only at h
  rw [ht] at h
  norm_num at h
  exact Int.not_even_iff_odd.mpr h

theorem pyround_cases (q : ℚ) : pyround q = ⌊q⌋ ∨ pyround q = ⌊q⌋ + 1 := by
  have h1 := pyround_ge_floor q
  have h2 := pyround_le_floor_add_one q
  omega

theorem pyround_mono {x y : ℚ} (h : x ≤ y) : pyround x ≤ pyround y := by
  by_contra hc
  push_neg at hc
  have hf : ⌊x⌋ ≤ ⌊y⌋ := Int.floor_le_floor h
  have hx1 := pyround_ge_floor x
  have hx2 := pyround_le_floor_add_one x
  have hy1 := pyround_ge_floor y
  have hy2 := pyround_le_floor_add_one y
  have hyf : pyround y = ⌊y⌋ := by omega
  have hxf : pyround x = ⌊x⌋ + 1 := by omega
  have hff : ⌊x⌋ = ⌊y⌋ := by omega
  have ha := half_le_of_pyround_eq_add_one hxf
  have hb := frac_le_half_of_pyround_eq_floor hyf
  have hxt : x - ⌊x⌋ = 1/2 := by
    have hle : x - (⌊x⌋ : ℚ) ≤ y - (⌊y⌋ : ℚ) := by
      rw [← hff]; linarith
    linarith
  have hyt : y - ⌊y⌋ = 1/2 := by
    have hle : x - (⌊x⌋ : ℚ) ≤ y - (⌊y⌋ : ℚ) := by
      rw [← hff]; linarith
    linarith
  have he := even_of_pyround_eq_floor_of_half hyf hyt
  have ho := odd_of_pyround_eq_add_one_of_half hxf hxt
  rw [hff] at ho
  exact ho he

/-! ### Stable sort lemmas -/

theorem mem_insertStable {bf : α → α → Bool} {x a : α} :
    ∀ {l : List α}, a ∈ insertStable bf x l ↔ a = x ∨ a ∈ l := by
  intro l
  induction l with
  | nil => simp [insertStable]
  | cons y ys ih =>
    simp only [insertStable]
    split
    · simp [or_comm, or_assoc, or_left_comm]
    · simp only [List.mem_cons, ih]
      tauto

theorem insertStable_perm (bf : α → α → Bool) (x : α) :
    ∀ l : List α, (insertStable bf x l).Perm (x :: l) := by
  intro l
  induction l with
  | nil => simp [insertStable]
  | cons y ys ih =>
    simp only [insertStable]
    split
    · exact List.Perm.refl _
    · exact (List.Perm.cons y ih).trans (List.Perm.swap x y ys)

theorem stableSort_perm (bf : α → α → Bool) :
    ∀ l : List α, (stableSort bf l).Perm l := by
  intro l
  induction l with
  | nil => simp [stableSort]
  | cons x xs ih =>
    have h : stableSort bf (x :: xs) = insertStable bf x (stableSort bf xs) := rfl
    rw [h]
    exact (insertStable_perm bf x (stableSort bf xs)).trans (List.Perm.cons x ih)

theorem mem_stableSort {bf : α → α → Bool} {l : List α} {a : α} :
    a ∈ stableSort bf l ↔ a ∈ l :=
  (stableSort_perm bf l).mem_iff

theorem stableSort_length (bf : α → α → Bool) (l : List α) :
    (stableSort bf l).length = l.length :=
  (stableSort_perm bf l).length_eq

theorem stableSort_map_sum {β : Type} [AddCommMonoid β] (bf : α → α → Bool)
    (l : List α) (f : α → β) :
    ((stableSort bf l).map f).sum = (l.map f).sum :=
  ((stableSort_perm bf l).map f).sum_eq

/-- Pairwise preservation through stable insertion.  The obligations `h1`–`h3`
say how the inserted element relates to the resident elements. -/
theorem pairwise_insertStable {P : α → α → Prop} {bf : α → α → Bool} {x : α} :
    ∀ {l : List α}, l.Pairwise P →
    (∀ y ∈ l, bf x y = true → P x y) →
    (∀ y ∈ l, bf x y = false → P y x) →
    (∀ y ∈ l, ∀ z ∈ l, bf x y = true → P y z → P x z) →
    (insertStable bf x l).Pairwise P := by
  intro l
  induction l with
  | nil =>
    intro _ _ _ _
    simp [insertStable]
  | cons y ys ih =>
    intro hl h1 h2 h3
    simp only [insertStable]
    rcases List.pairwise_cons.mp hl with ⟨hy, hys⟩
    by_cases hxy : bf x y = true
    · rw [if_pos hxy]
      refine List.pairwise_cons.mpr ⟨?_, hl⟩
      intro w hw
      rcases List.mem_cons.mp hw with hwy | hwys
      · rw [hwy]
        exact h1 y (List.mem_cons_self y ys) hxy
      · exact h3 y (List.mem_cons_self y ys) w (List.mem_cons_of_mem y hwys) hxy (hy w hwys)
    · rw [if_neg hxy]
      refine List.pairwise_cons.mpr ⟨?_, ?_⟩
      · intro w hw
        rcases mem_insertStable.mp hw with hwx | hwys
        · subst hwx
          exact h2 y (List.mem_cons_self y ys) (by simpa using hxy)
        · exact hy w hwys
      · refine ih hys ?_ ?_ ?_
        · intro w hw hbw
          exact h1 w (List.mem_cons_of_mem y hw) hbw
        · intro w hw hbw
          exact h2 w (List.mem_cons_of_mem y hw) hbw
        · intro w hw z hz hbw hP
          exact h3 w (List.mem_cons_of_mem y hw) z (List.mem_cons_of_mem y hz) hbw hP

/-- In a list that is strictly descending for an asymmetric relation `R`,
membership in the first `n` elements is exactly having fewer than `n`
strict predecessors in the list. -/
theorem mem_take_iff_countP_lt {R : α → α → Bool} :
    ∀ {l : List α}, l.Pairwise (fun a b => R a b = true) →
    (∀ a b, R a b = true → R b a = false) →
    ∀ {c : α}, c ∈ l → ∀ (n : ℕ),
      (c ∈ l.take n ↔ l.countP (fun d => R d c) < n) := by
  intro l
  induction l with
  | nil =>
    intro _ _ c hc
    exact absurd hc (List.not_mem_nil c)
  | cons h tl ih =>
    intro hp hasym c hc n
    rcases List.pairwise_cons.mp hp with ⟨hh, htl⟩
    by_cases hch : c = h
    · subst hch
      have hRcc : R c c = false := by
        by_cases hr : R c c = true
        · exact hasym c c hr
        · simpa using hr
      have hcount : (c :: tl).countP (fun d => R d c) = 0 := by
        rw [List.countP_cons]
        have hc0 : tl.countP (fun d => R d c) = 0 := by
          rw [List.countP_eq_zero]
          intro d hd
          by_cases hr : R d c = true
          · exfalso
            have hcd := hh d hd
            have hfalse := hasym c d hcd
            rw [hfalse] at hr
            exact Bool.false_ne_true hr
          · simpa using hr
        simp [hc0, hRcc]
      rw [hcount]
      cases n with
      | zero => simp
      | succ m => simp [List.take_succ_cons]
    · have hctl : c ∈ tl := by
        rcases List.mem_cons.mp hc with h1 | h1
        · exact absurd h1 hch
        · exact h1
      have hRhc : R h c = true := hh c hctl
      have hcount : (h :: tl).countP (fun d => R d c) =
          tl.countP (fun d => R d c) + 1 := by
        rw [List.countP_cons]
        simp [hRhc]
      rw [hcount]
      cases n with
      | zero => simp
      | succ m =>
        rw [List.take_succ_cons]
        constructor
        · intro hmem
          rcases List.mem_cons.mp hmem with h1 | h1
          · exact absurd h1 hch
          · have hlt := (ih htl hasym hctl m).mp h1
            omega
        · intro hlt
          have hlt2 : tl.countP (fun d => R d c) < m := by omega
          have hmem := (ih htl hasym hctl m).mpr hlt2
          exact List.mem_cons_of_mem h hmem

/-! ### Renderer lemmas -/

theorem blockWalk_chained : ∀ (l : List Alloc) (s : ℤ), chainedFrom s (blockWalk s l) := by
  intro l
  induction l with
  | nil => intro s; simp [blockWalk, chainedFrom]
  | cons a tl ih =>
    intro s
    simp only [blockWalk]
    split
    · exact ih s
    · exact ⟨rfl, rfl, ih (s + a.validators)⟩

theorem blockWalk_end : ∀ (l : List Alloc) (s : ℤ),
    endFrom s (blockWalk s l) = s + listValidatorSum (emittedAllocs l) := by
  intro l
  induction l with
  | nil => intro s; simp [blockWalk, endFrom, emittedAllocs, listValidatorSum]
  | cons a tl ih =>
    intro s
    simp only [blockWalk]
    split
    · rename_i hskip
      rw [ih s]
      have h1 : emittedAllocs (a :: tl) = emittedAllocs tl := by
        simp only [emittedAllocs, List.filter_cons]
        rw [if_neg (by simp only [decide_eq_true_eq]; exact not_not_intro hskip)]
      rw [h1]
    · rename_i hkeep
      simp only [endFrom]
      rw [ih (s + a.validators)]
      have h1 : emittedAllocs (a :: tl) = a :: emittedAllocs tl := by
        simp only [emittedAllocs, List.filter_cons]
        rw [if_pos (by simpa using hkeep)]
      rw [h1]
      simp only [listValidatorSum, List.map_cons, List.sum_cons]
      ring

theorem blockWalk_validators_pos :
    ∀ (l : List Alloc) (s : ℤ), ∀ b ∈ blockWalk s l, 0 < b.validators := by
  intro l
  induction l with
  | nil => intro s b hb; simp [blockWalk] at hb
  | cons a tl ih =>
    intro s b hb
    simp only [blockWalk] at hb
    split at hb
    · exact ih s b hb
    · rename_i hkeep
      push_neg at hkeep
      rcases List.mem_cons.mp hb with h1 | h1
      · rw [h1]
        simpa using hkeep.2
      · exact ih (s + a.validators) b h1

theorem blockWalk_source :
    ∀ (l : List Alloc) (s : ℤ), ∀ b ∈ blockWalk s l, ∃ a ∈ l,
      b.machines = a.machines ∧ b.nodeType = a.nodeType := by
  intro l
  induction l with
  | nil => intro s b hb; simp [blockWalk] at hb
  | cons a tl ih =>
    intro s b hb
    simp only [blockWalk] at hb
    split at hb
    · rcases ih s b hb with ⟨c, hc, hm⟩
      exact ⟨c, List.mem_cons_of_mem a hc, hm⟩
    · rcases List.mem_cons.mp hb with h1 | h1
      · exact ⟨a, List.mem_cons_self a tl, by rw [h1], by rw [h1]⟩
      · rcases ih (s + a.validators) b h1 with ⟨c, hc, hm⟩
        exact ⟨c, List.mem_cons_of_mem a hc, hm⟩

theorem chained_start_le : ∀ (bs : List Block) (s : ℤ), chainedFrom s bs →
    (∀ b ∈ bs, 0 < b.validators) → ∀ b ∈ bs, s ≤ b.vStart := by
  intro bs
  induction bs with
  | nil => intro s _ _ b hb; simp at hb
  | cons c tl ih =>
    intro s hch hpos b hb
    rcases hch with ⟨hs, he, htl⟩
    rcases List.mem_cons.mp hb with h1 | h1
    · rw [h1, hs]
    · have hc : 0 < c.validators := hpos c (List.mem_cons_self c tl)
      have := ih c.vEnd htl (fun b hb => hpos b (List.mem_cons_of_mem c hb)) b h1
      omega

theorem chained_disjoint : ∀ (bs : List Block) (s : ℤ), chainedFrom s bs →
    (∀ b ∈ bs, 0 < b.validators) →
    bs.Pairwise (fun p q => p.vEnd ≤ q.vStart) := by
  intro bs
  induction bs with
  | nil => intro s _ _; exact List.Pairwise.nil
  | cons c tl ih =>
    intro s hch hpos
    rcases hch with ⟨hs, he, htl⟩
    refine List.pairwise_cons.mpr ⟨?_, ?_⟩
    · intro b hb
      exact chained_start_le tl c.vEnd htl
        (fun b hb => hpos b (List.mem_cons_of_mem c hb)) b hb
    · exact ih c.vEnd htl (fun b hb => hpos b (List.mem_cons_of_mem c hb))

theorem renderBlocks_validators_pos (l : List Alloc) :
    ∀ b ∈ renderBlocks l, 0 < b.validators :=
  blockWalk_validators_pos (stableSort rendererBf l) 0

theorem renderBlocks_chained (l : List Alloc) : chainedFrom 0 (renderBlocks l) :=
  blockWalk_chained (stableSort rendererBf l) 0

theorem renderBlocks_end (l : List Alloc) :
    endFrom 0 (renderBlocks l) = listValidatorSum (emittedAllocs l) := by
  have h1 := blockWalk_end (stableSort rendererBf l) 0
  have h2 : listValidatorSum (emittedAllocs (stableSort rendererBf l)) =
      listValidatorSum (emittedAllocs l) := by
    unfold listValidatorSum emittedAllocs
    exact (((stableSort_perm rendererBf l).filter _).map _).sum_eq
  rw [renderBlocks, h1, h2]
  ring

/-! ### Helper lemmas about allocation lists -/

theorem addValidatorsAt_sum : ∀ (l : List Alloc) (i : ℕ) (d : ℤ), i < l.length →
    listValidatorSum (addValidatorsAt l i d) = listValidatorSum l + d := by
  intro l
  induction l with
  | nil => intro i d h; simp at h
  | cons a tl ih =>
    intro i d h
    cases i with
    | zero =>
      simp only [addValidatorsAt, listValidatorSum, List.map_cons, List.sum_cons]
      ring
    | succ n =>
      simp only [addValidatorsAt, listValidatorSum, List.map_cons, List.sum_cons]
      have hrec := ih n d (by simpa using Nat.lt_of_succ_lt_succ h)
      unfold listValidatorSum at hrec
      omega

theorem addValidatorsAt_mem : ∀ (l : List Alloc) (i : ℕ) (d : ℤ),
    ∀ a ∈ addValidatorsAt l i d, ∃ b ∈ l,
      a.machines = b.machines ∧ a.nodeType = b.nodeType ∧
      a.clName = b.clName ∧ a.elName = b.elName := by
  intro l
  induction l with
  | nil => intro i d a ha; simp [addValidatorsAt] at ha
  | cons c tl ih =>
    intro i d a ha
    cases i with
    | zero =>
      simp only [addValidatorsAt] at ha
      rcases List.mem_cons.mp ha with h1 | h1
      · exact ⟨c, List.mem_cons_self c tl, by rw [h1], by rw [h1], by rw [h1], by rw [h1]⟩
      · exact ⟨a, List.mem_cons_of_mem c h1, rfl, rfl, rfl, rfl⟩
    | succ n =>
      simp only [addValidatorsAt] at ha
      rcases List.mem_cons.mp ha with h1 | h1
      · exact ⟨c, List.mem_cons_self c tl, by rw [h1], by rw [h1], by rw [h1], by rw [h1]⟩
      · rcases ih n d a h1 with ⟨b, hb, he⟩
        exact ⟨b, List.mem_cons_of_mem c hb, he⟩

theorem foldlMax_attained : ∀ (tl : List Alloc) (m : ℤ),
    tl.foldl (fun acc b => max acc b.machines) m = m ∨
    ∃ b ∈ tl, tl.foldl (fun acc b => max acc b.machines) m = b.machines := by
  intro tl
  induction tl with
  | nil => intro m; left; rfl
  | cons b bs ih =>
    intro m
    have hstep : (b :: bs).foldl (fun acc c => max acc c.machines) m =
        bs.foldl (fun acc c => max acc c.machines) (max m b.machines) := rfl
    rcases ih (max m b.machines) with h1 | ⟨c, hc, he⟩
    · rcases le_or_lt b.machines m with hle | hlt
      · left
        rw [hstep, h1, max_eq_left hle]
      · right
        refine ⟨b, List.mem_cons_self b bs, ?_⟩
        rw [hstep, h1, max_eq_right (le_of_lt hlt)]
    · right
      exact ⟨c, List.mem_cons_of_mem b hc, by rw [hstep, he]⟩

theorem maxMachines_attained (l : List Alloc) (h : l ≠ []) :
    ∃ a ∈ l, a.machines = maxMachines l := by
  cases l with
  | nil => exact absurd rfl h
  | cons a tl =>
    rcases foldlMax_attained tl a.machines with h1 | ⟨b, hb, he⟩
    · exact ⟨a, List.mem_cons_self a tl, h1.symm⟩
    · exact ⟨b, List.mem_cons_of_mem a hb, he.symm⟩

theorem maxMachines_ge : ∀ (l : List Alloc), ∀ a ∈ l, a.machines ≤ maxMachines l := by
  have hstep : ∀ (tl : List Alloc) (m : ℤ),
      m ≤ tl.foldl (fun acc b => max acc b.machines) m ∧
      ∀ a ∈ tl, a.machines ≤ tl.foldl (fun acc b => max acc b.machines) m := by
    intro tl
    induction tl with
    | nil => intro m; exact ⟨le_refl m, by simp⟩
    | cons b bs ih =>
      intro m
      have hrec := ih (max m b.machines)
      constructor
      · exact le_trans (le_max_left m b.machines) hrec.1
      · intro a ha
        rcases List.mem_cons.mp ha with h1 | h1
        · rw [h1]
          exact le_trans (le_max_right m b.machines) hrec.1
        · exact hrec.2 a h1
  intro l a ha
  cases l with
  | nil => simp at ha
  | cons c tl =>
    rcases List.mem_cons.mp ha with h1 | h1
    · rw [h1]
      exact (hstep tl c.machines).1
    · exact (hstep tl c.machines).2 a h1

theorem firstMaxMachinesIdx_lt_length (l : List Alloc) (h : l ≠ []) :
    firstMaxMachinesIdx l < l.length := by
  rcases maxMachines_attained l h with ⟨a, ha, he⟩
  exact List.findIdx_lt_length_of_exists ⟨a, ha, by simp [he]⟩

/-! ### optimize_validator_distribution lemmas -/

theorem adjustTier_ne_nil {cfg : SimpleConfig} {t : NodeType} {l : List Alloc}
    (h : l ≠ []) : adjustTier cfg t l ≠ [] := by
  simpa [adjustTier] using h

theorem optimizeTier_sum (cfg : SimpleConfig) (t : NodeType) (l : List Alloc)
    (h : l ≠ []) : listValidatorSum (optimizeTier cfg t l) = validatorsByType cfg t := by
  unfold optimizeTier
  rw [if_neg h]
  by_cases hc : listValidatorSum l = validatorsByType cfg t
  · rw [if_pos hc]
    exact hc
  · rw [if_neg hc]
    by_cases hf : validatorsByType cfg t - listValidatorSum (adjustTier cfg t l) = 0
    · rw [if_pos hf]
      omega
    · rw [if_neg hf]
      have hlen := firstMaxMachinesIdx_lt_length (adjustTier cfg t l) (adjustTier_ne_nil h)
      rw [addValidatorsAt_sum _ _ _ hlen]
      omega

theorem optimizeTier_mem (cfg : SimpleConfig) (t : NodeType) (l : List Alloc) :
    ∀ a ∈ optimizeTier cfg t l, ∃ b ∈ l,
      a.machines = b.machines ∧ a.nodeType = b.nodeType := by
  intro a ha
  unfold optimizeTier at ha
  split at ha
  · exact ⟨a, ha, rfl, rfl⟩
  · split at ha
    · exact ⟨a, ha, rfl, rfl⟩
    · have hmap : ∀ c ∈ adjustTier cfg t l, ∃ b ∈ l,
          c.machines = b.machines ∧ c.nodeType = b.nodeType := by
        intro c hc
        rcases List.mem_map.mp hc with ⟨b, hb, he⟩
        exact ⟨b, hb, by rw [← he], by rw [← he]⟩
      split at ha
      · exact hmap a ha
      · rcases addValidatorsAt_mem _ _ _ a ha with ⟨c, hc, h1, h2, _, _⟩
        rcases hmap c hc with ⟨b, hb, h3, h4⟩
        exact ⟨b, hb, by rw [h1, h3], by rw [h2, h4]⟩

theorem filter_type_eq_self {l : List Alloc} {t : NodeType}
    (h : ∀ a ∈ l, a.nodeType = t) :
    (l.filter fun a => a.nodeType = t) = l := by
  rw [List.filter_eq_self]
  intro a ha
  simp [h a ha]

theorem filter_type_eq_nil {l : List Alloc} {t t' : NodeType} (hne : t' ≠ t)
    (h : ∀ a ∈ l, a.nodeType = t') :
    (l.filter fun a => a.nodeType = t) = [] := by
  rw [List.filter_eq_nil_iff]
  intro a ha
  simp [h a ha, hne]

theorem filter_flatMap_tiers (f : NodeType → List Alloc)
    (hf : ∀ t', ∀ a ∈ f t', a.nodeType = t') (t : NodeType) :
    ((tiersList.flatMap f).filter fun a => a.nodeType = t) = f t := by
  have hexp : tiersList.flatMap f = f .default ++ (f .full ++ (f .super ++ [])) := rfl
  rw [hexp]
  cases t with
  | default =>
    simp only [List.filter_append, List.filter_nil, List.append_nil]
    rw [filter_type_eq_self (hf .default),
      filter_type_eq_nil (by simp) (hf .full),
      filter_type_eq_nil (by simp) (hf .super)]
    simp
  | full =>
    simp only [List.filter_append, List.filter_nil, List.append_nil]
    rw [filter_type_eq_self (hf .full),
      filter_type_eq_nil (by simp) (hf .default),
      filter_type_eq_nil (by simp) (hf .super)]
    simp
  | super =>
    simp only [List.filter_append, List.filter_nil, List.append_nil]
    rw [filter_type_eq_self (hf .super),
      filter_type_eq_nil (by simp) (hf .default),
      filter_type_eq_nil (by simp) (hf .full)]
    simp

theorem tierAllocs_nodeType (cfg : SimpleConfig) (t : NodeType) :
    ∀ a ∈ tierAllocs cfg t, a.nodeType = t := by
  intro a ha
  unfold tierAllocs at ha
  split at ha
  · simp at ha
  · rcases List.mem_filterMap.mp ha with ⟨c, _, hc⟩
    split at hc
    · injection hc with h
      rw [← h]
    · exact absurd hc (by simp)

theorem tierAllocs_machines_pos (cfg : SimpleConfig) (t : NodeType) :
    ∀ a ∈ tierAllocs cfg t, 0 < a.machines := by
  intro a ha
  unfold tierAllocs at ha
  split at ha
  · simp at ha
  · rcases List.mem_filterMap.mp ha with ⟨c, _, hc⟩
    split at hc
    · rename_i hpos
      injection hc with h
      rw [← h]
      exact hpos
    · exact absurd hc (by simp)

theorem calculateAllocations_filter (cfg : SimpleConfig) (t : NodeType) :
    ((calculateAllocations cfg).filter fun a => a.nodeType = t) = tierAllocs cfg t :=
  filter_flatMap_tiers (tierAllocs cfg) (tierAllocs_nodeType cfg) t

theorem optimizeValidatorDistribution_filter (cfg : SimpleConfig)
    (allocs : List Alloc) (t : NodeType) :
    ((optimizeValidatorDistribution cfg allocs).filter fun a => a.nodeType = t) =
      optimizeTier cfg t (allocs.filter fun a => a.nodeType = t) := by
  unfold optimizeValidatorDistribution
  refine filter_flatMap_tiers _ ?_ t
  intro t' a ha
  rcases optimizeTier_mem cfg t' _ a ha with ⟨b, hb, _, ht⟩
  rw [ht]
  exact of_decide_eq_true (List.mem_filter.mp hb).2

theorem simpleFinal_filter (cfg : SimpleConfig) (t : NodeType) :
    ((simpleFinal cfg).filter fun a => a.nodeType = t) =
      optimizeTier cfg t (tierAllocs cfg t) := by
  unfold simpleFinal
  rw [optimizeValidatorDistribution_filter, calculateAllocations_filter]

/-! ### split-calculator.py helper lemmas -/

theorem finTypeAllocs_nodeType (cfg : SplitConfig) (t : NodeType) :
    ∀ a ∈ finTypeAllocs cfg t, a.nodeType = t := by
  intro a ha
  unfold finTypeAllocs at ha
  rcases List.mem_filterMap.mp ha with ⟨p, _, hp⟩
  split at hp
  · injection hp with h
    rw [← h]
  · exact absurd hp (by simp)

theorem finTypeAllocs_machines_pos (cfg : SplitConfig) (t : NodeType) :
    ∀ a ∈ finTypeAllocs cfg t, 0 < a.machines := by
  intro a ha
  unfold finTypeAllocs at ha
  rcases List.mem_filterMap.mp ha with ⟨p, _, hp⟩
  split at hp
  · rename_i hpos
    injection hp with h
    rw [← h]
    exact hpos
  · exact absurd hp (by simp)

theorem redistributeOrphans_mem (o : ℤ) (fin : List Alloc) :
    ∀ a ∈ redistributeOrphans o fin, ∃ b ∈ fin,
      a.machines = b.machines ∧ a.nodeType = b.nodeType := by
  intro a ha
  unfold redistributeOrphans at ha
  split at ha
  · have hmap : ∀ c ∈ (fin.map fun a =>
        { a with validators := a.validators + orphanShare o fin.length }),
        ∃ b ∈ fin, c.machines = b.machines ∧ c.nodeType = b.nodeType := by
      intro c hc
      rcases List.mem_map.mp hc with ⟨b, hb, he⟩
      exact ⟨b, hb, by rw [← he], by rw [← he]⟩
    split at ha
    · rcases addValidatorsAt_mem _ _ _ a ha with ⟨c, hc, h1, h2, _, _⟩
      rcases hmap c hc with ⟨b, hb, h3, h4⟩
      exact ⟨b, hb, by rw [h1, h3], by rw [h2, h4]⟩
    · exact hmap a ha
  · exact ⟨a, ha, rfl, rfl⟩

theorem roundedAllocations_filter (cfg : SplitConfig) (t : NodeType) :
    ((roundedAllocations cfg).filter fun a => a.nodeType = t) =
      redistributeOrphans (orphanedValidators cfg t) (finTypeAllocs cfg t) := by
  unfold roundedAllocations
  refine filter_flatMap_tiers _ ?_ t
  intro t' a ha
  rcases redistributeOrphans_mem _ _ a ha with ⟨b, hb, _, ht⟩
  rw [ht]
  exact finTypeAllocs_nodeType cfg t' b hb

theorem roundedAllocations_machines_pos (cfg : SplitConfig) :
    ∀ a ∈ roundedAllocations cfg, 0 < a.machines := by
  intro a ha
  rcases List.mem_flatMap.mp ha with ⟨t, _, hmem⟩
  rcases redistributeOrphans_mem _ _ a hmem with ⟨b, hb, hm, _⟩
  rw [hm]
  exact finTypeAllocs_machines_pos cfg t b hb

theorem simpleFinal_machines_pos (cfg : SimpleConfig) :
    ∀ a ∈ simpleFinal cfg, 0 < a.machines := by
  intro a ha
  rcases List.mem_flatMap.mp ha with ⟨t, _, hmem⟩
  rcases optimizeTier_mem cfg t _ a hmem with ⟨b, hb, hm, _⟩
  have hb2 : b ∈ calculateAllocations cfg := (List.mem_filter.mp hb).1
  rcases List.mem_flatMap.mp hb2 with ⟨t', _, hmem'⟩
  rw [hm]
  exact tierAllocs_machines_pos cfg t' b hmem'

/-- Generic split of the truncated validator mass of a list of assignments
into the surviving part and the orphaned part. -/
theorem assignment_sum_partition (t : NodeType) :
    ∀ L : List (RawAlloc × ℤ),
    (L.map fun p => pyint p.1.validators).sum =
      listValidatorSum (L.filterMap fun p => if 0 < p.2 then
        some ⟨p.1.clName, p.1.elName, t, p.2, pyint p.1.validators⟩ else none) +
      ((L.filter fun p => decide (p.2 ≤ 0)).map fun p => pyint p.1.validators).sum := by
  intro L
  induction L with
  | nil => simp [listValidatorSum]
  | cons p ps ih =>
    by_cases hp : 0 < p.2
    · have h1 : ((p :: ps).filterMap fun q => if 0 < q.2 then
          some (⟨q.1.clName, q.1.elName, t, q.2, pyint q.1.validators⟩ : Alloc) else none) =
          ⟨p.1.clName, p.1.elName, t, p.2, pyint p.1.validators⟩ ::
            (ps.filterMap fun q => if 0 < q.2 then
              some ⟨q.1.clName, q.1.elName, t, q.2, pyint q.1.validators⟩ else none) := by
        rw [List.filterMap_cons]
        simp [hp]
      have h2 : ((p :: ps).filter fun q => decide (q.2 ≤ 0)) =
          ps.filter fun q => decide (q.2 ≤ 0) := by
        rw [List.filter_cons]
        simp [hp, not_le.mpr hp]
      rw [List.map_cons, List.sum_cons, h1, h2]
      unfold listValidatorSum at ih ⊢
      simp only [List.map_cons, List.sum_cons]
      omega
    · have h1 : ((p :: ps).filterMap fun q => if 0 < q.2 then
          some (⟨q.1.clName, q.1.elName, t, q.2, pyint q.1.validators⟩ : Alloc) else none) =
          ps.filterMap fun q => if 0 < q.2 then
            some ⟨q.1.clName, q.1.elName, t, q.2, pyint q.1.validators⟩ else none := by
        rw [List.filterMap_cons]
        simp [hp]
      have h2 : ((p :: ps).filter fun q => decide (q.2 ≤ 0)) =
          p :: (ps.filter fun q => decide (q.2 ≤ 0)) := by
        rw [List.filter_cons]
        simp [not_lt.mp hp]
      rw [List.map_cons, List.sum_cons, h1, h2]
      simp only [List.map_cons, List.sum_cons]
      omega

theorem truncated_eq_fin_add_orphaned (cfg : SplitConfig) (t : NodeType) :
    truncatedTierSum cfg t =
      listValidatorSum (finTypeAllocs cfg t) + orphanedValidators cfg t :=
  assignment_sum_partition t (machineAssignments cfg t)

theorem listValidatorSum_map_add (l : List Alloc) (s : ℤ) :
    listValidatorSum (l.map fun a => { a with validators := a.validators + s }) =
      listValidatorSum l + l.length * s := by
  induction l with
  | nil => simp [listValidatorSum]
  | cons a tl ih =>
    unfold listValidatorSum at ih ⊢
    simp only [List.map_cons, List.sum_cons, List.length_cons]
    rw [ih]
    push_cast
    ring

theorem orphanShare_eq (o : ℤ) (n : ℕ) (ho : 0 ≤ o) :
    orphanShare o n = o / (n : ℤ) := by
  unfold orphanShare
  have hnn : 0 ≤ (o : ℚ) / (n : ℚ) := by
    apply div_nonneg
    · exact_mod_cast ho
    · positivity
  rw [pyint_of_nonneg hnn, Rat.floor_intCast_div_natCast]

theorem redistributeOrphans_sum (o : ℤ) (fin : List Alloc) (ho : 0 ≤ o)
    (hcase : o = 0 ∨ fin ≠ []) :
    listValidatorSum (redistributeOrphans o fin) = listValidatorSum fin + o := by
  unfold redistributeOrphans
  by_cases hg : 0 < o ∧ fin ≠ []
  · rw [if_pos hg]
    have hn : 0 < fin.length := List.length_pos.mpr hg.2
    have hshare := orphanShare_eq o fin.length ho
    have hdm := Int.ediv_add_emod o (fin.length : ℤ)
    have hmod : 0 ≤ o % (fin.length : ℤ) :=
      Int.emod_nonneg o (by exact_mod_cast Nat.pos_iff_ne_zero.mp hn)
    by_cases hr : 0 < o - orphanShare o fin.length * (fin.length : ℤ)
    · rw [if_pos hr]
      have hlen : (0 : ℕ) < (fin.map fun a =>
          { a with validators := a.validators + orphanShare o fin.length }).length := by
        simpa using hn
      rw [addValidatorsAt_sum _ _ _ hlen, listValidatorSum_map_add]
      rw [hshare]
      linarith [hdm]
    · rw [if_neg hr]
      rw [listValidatorSum_map_add, hshare]
      have hz : o - o / (fin.length : ℤ) * (fin.length : ℤ) = 0 := by
        rw [hshare] at hr
        have hcomm : o / (fin.length : ℤ) * (fin.length : ℤ) =
            (fin.length : ℤ) * (o / (fin.length : ℤ)) := mul_comm _ _
        omega
      linarith [hdm, hz]
  · rw [if_neg hg]
    rcases hcase with h0 | hne
    · rw [h0]; ring
    · have : ¬ 0 < o := fun hc => hg ⟨hc, hne⟩
      have : o = 0 := by omega
      rw [this]; ring

/-! ### Largest-remainder lemmas for the simple script -/

theorem cast_map_sum_le {γ : Type} (L : List γ) (f : γ → ℤ) (g : γ → ℚ)
    (h : ∀ c ∈ L, (f c : ℚ) ≤ g c) :
    (((L.map f).sum : ℤ) : ℚ) ≤ (L.map g).sum := by
  induction L with
  | nil => simp
  | cons a tl ih =>
    simp only [List.map_cons, List.sum_cons, Int.cast_add]
    exact add_le_add (h a (List.mem_cons_self a tl))
      (ih fun c hc => h c (List.mem_cons_of_mem a hc))

theorem le_cast_map_sum {γ : Type} (L : List γ) (f : γ → ℤ) (g : γ → ℚ)
    (h : ∀ c ∈ L, g c ≤ (f c : ℚ)) :
    (L.map g).sum ≤ (((L.map f).sum : ℤ) : ℚ) := by
  induction L with
  | nil => simp
  | cons a tl ih =>
    simp only [List.map_cons, List.sum_cons, Int.cast_add]
    exact add_le_add (h a (List.mem_cons_self a tl))
      (ih fun c hc => h c (List.mem_cons_of_mem a hc))

theorem combos_pairwise_idx (cfg : SimpleConfig) :
    (combos cfg).Pairwise fun a b => a.idx < b.idx := by
  unfold combos
  rw [List.pairwise_map]
  have h1 : ∀ (l : List ((String × ℚ) × String × ℚ)),
      l.enum.Pairwise fun p q => p.1 < q.1 := by
    intro l
    have h2 := List.pairwise_lt_range l.length
    rw [← List.enum_map_fst l, List.pairwise_map] at h2
    exact h2
  exact h1 _

theorem combos_nodup (cfg : SimpleConfig) : (combos cfg).Nodup := by
  refine List.Pairwise.imp ?_ (combos_pairwise_idx cfg)
  intro a b hab hc
  rw [hc] at hab
  omega

theorem combos_shares_nonneg (cfg : SimpleConfig)
    (hcl : ∀ p ∈ cfg.clClients, 0 ≤ p.2) (hel : ∀ p ∈ cfg.elClients, 0 ≤ p.2) :
    ∀ c ∈ combos cfg, 0 ≤ c.clShare ∧ 0 ≤ c.elShare := by
  intro c hc
  unfold combos at hc
  rcases List.mem_map.mp hc with ⟨p, hp, he⟩
  have hp2 : p.2 ∈ (cfg.clClients.flatMap fun c => cfg.elClients.map fun e => (c, e)) := by
    have := List.mem_map_of_mem Prod.snd hp
    rwa [List.enum_map_snd] at this
  rcases List.mem_flatMap.mp hp2 with ⟨cl, hcl2, hmem⟩
  rcases List.mem_map.mp hmem with ⟨el, hel2, hpe⟩
  constructor
  · rw [← he]
    show 0 ≤ p.2.1.2
    rw [← hpe]
    exact hcl cl hcl2
  · rw [← he]
    show 0 ≤ p.2.2.2
    rw [← hpe]
    exact hel el hel2

theorem comboWeight_nonneg {cfg : SimpleConfig}
    (hcl : ∀ p ∈ cfg.clClients, 0 ≤ p.2) (hel : ∀ p ∈ cfg.elClients, 0 ≤ p.2) :
    ∀ c ∈ combos cfg, 0 ≤ comboWeight c := by
  intro c hc
  rcases combos_shares_nonneg cfg hcl hel c hc with ⟨h1, h2⟩
  exact mul_nonneg h1 h2

theorem idealMachines_nonneg {cfg : SimpleConfig} {t : NodeType}
    (hcl : ∀ p ∈ cfg.clClients, 0 ≤ p.2) (hel : ∀ p ∈ cfg.elClients, 0 ≤ p.2) :
    ∀ c ∈ combos cfg, 0 ≤ idealMachines cfg t c := by
  intro c hc
  exact mul_nonneg (by positivity) (comboWeight_nonneg hcl hel c hc)

theorem cross_weight_sum (l2 : List (String × ℚ)) :
    ∀ l1 : List (String × ℚ),
    ((l1.flatMap fun c => l2.map fun e => (c, e)).map fun q => q.1.2 * q.2.2).sum =
      (l1.map Prod.snd).sum * (l2.map Prod.snd).sum := by
  intro l1
  induction l1 with
  | nil => simp
  | cons c tl ih =>
    rw [List.flatMap_cons, List.map_append, List.sum_append, ih]
    have h1 : ((l2.map fun e => (c, e)).map fun q : (String × ℚ) × String × ℚ =>
        q.1.2 * q.2.2) = l2.map fun e => c.2 * Prod.snd e := by
      rw [List.map_map]
      rfl
    rw [h1, List.sum_map_mul_left, List.map_cons, List.sum_cons]
    ring

theorem sum_comboWeights (cfg : SimpleConfig) :
    ((combos cfg).map fun c => comboWeight c).sum =
      (cfg.clClients.map Prod.snd).sum * (cfg.elClients.map Prod.snd).sum := by
  have hbridge : (combos cfg).map (fun c => comboWeight c) =
      (cfg.clClients.flatMap fun c => cfg.elClients.map fun e => (c, e)).map
        (fun q => q.1.2 * q.2.2) := by
    conv_rhs => rw [← List.enum_map_snd
      (cfg.clClients.flatMap fun c => cfg.elClients.map fun e => (c, e))]
    rw [List.map_map]
    unfold combos
    rw [List.map_map]
    rfl
  rw [hbridge]
  exact cross_weight_sum cfg.elClients cfg.clClients

theorem sum_sortedCombinations_ideal (cfg : SimpleConfig) (t : NodeType)
    (hcl : (cfg.clClients.map Prod.snd).sum = 1)
    (hel : (cfg.elClients.map Prod.snd).sum = 1) :
    ((sortedCombinations cfg t).map fun c => idealMachines cfg t c).sum =
      (cfg.machineCounts t : ℚ) := by
  unfold sortedCombinations
  rw [stableSort_map_sum]
  unfold idealMachines
  rw [List.sum_map_mul_left, sum_comboWeights, hcl, hel]
  ring

theorem combos_ne_nil (cfg : SimpleConfig)
    (hcl : (cfg.clClients.map Prod.snd).sum = 1)
    (hel : (cfg.elClients.map Prod.snd).sum = 1) :
    combos cfg ≠ [] := by
  intro hc
  have h1 : ((combos cfg).map fun c => comboWeight c).sum = 0 := by
    rw [hc]
    rfl
  rw [sum_comboWeights cfg, hcl, hel] at h1
  norm_num at h1

theorem remainingMachines_nonneg (cfg : SimpleConfig) (t : NodeType)
    (hcl : (cfg.clClients.map Prod.snd).sum = 1)
    (hel : (cfg.elClients.map Prod.snd).sum = 1)
    (hclnn : ∀ p ∈ cfg.clClients, 0 ≤ p.2)
    (helnn : ∀ p ∈ cfg.elClients, 0 ≤ p.2) :
    0 ≤ remainingMachines cfg t := by
  unfold remainingMachines flooredTotal
  have h := cast_map_sum_le (sortedCombinations cfg t)
    (fun c => pyint (idealMachines cfg t c)) (fun c => idealMachines cfg t c) ?_
  · rw [sum_sortedCombinations_ideal cfg t hcl hel] at h
    have h2 : ((sortedCombinations cfg t).map fun c =>
        pyint (idealMachines cfg t c)).sum ≤ (cfg.machineCounts t : ℤ) := by
      exact_mod_cast h
    omega
  · intro c hc
    dsimp only
    rw [pyint_of_nonneg (idealMachines_nonneg hclnn helnn c (mem_stableSort.mp hc))]
    exact Int.floor_le _

theorem map_sub_one_sum {γ : Type} (L : List γ) (g : γ → ℚ) :
    (L.map fun c => g c - 1).sum = (L.map g).sum - L.length := by
  induction L with
  | nil => simp
  | cons a tl ih =>
    simp only [List.map_cons, List.sum_cons, List.length_cons, ih]
    push_cast
    ring

theorem remainingMachines_le_length (cfg : SimpleConfig) (t : NodeType)
    (hcl : (cfg.clClients.map Prod.snd).sum = 1)
    (hel : (cfg.elClients.map Prod.snd).sum = 1)
    (hclnn : ∀ p ∈ cfg.clClients, 0 ≤ p.2)
    (helnn : ∀ p ∈ cfg.elClients, 0 ≤ p.2) :
    remainingMachines cfg t ≤ ((combos cfg).length : ℤ) := by
  unfold remainingMachines flooredTotal
  have h := le_cast_map_sum (sortedCombinations cfg t)
    (fun c => pyint (idealMachines cfg t c)) (fun c => idealMachines cfg t c - 1) ?_
  · rw [map_sub_one_sum, sum_sortedCombinations_ideal cfg t hcl hel] at h
    have hlen : (sortedCombinations cfg t).length = (combos cfg).length :=
      stableSort_length _ _
    rw [hlen] at h
    have h2 : (cfg.machineCounts t : ℤ) - ((combos cfg).length : ℤ) ≤
        ((sortedCombinations cfg t).map fun c => pyint (idealMachines cfg t c)).sum := by
      exact_mod_cast h
    omega
  · intro c hc
    dsimp only
    rw [pyint_of_nonneg (idealMachines_nonneg hclnn helnn c (mem_stableSort.mp hc))]
    have := Int.lt_floor_add_one (idealMachines cfg t c)
    linarith

theorem cross_map_names (l2 : List (String × ℚ)) :
    ∀ l1 : List (String × ℚ),
    ((l1.flatMap fun c => l2.map fun e => (c, e)).map fun q => (q.1.1, q.2.1)) =
      (l1.map Prod.fst).flatMap fun a => (l2.map Prod.fst).map fun b => (a, b) := by
  intro l1
  induction l1 with
  | nil => rfl
  | cons c tl ih =>
    rw [List.flatMap_cons, List.map_append, ih, List.map_cons, List.flatMap_cons]
    congr 1
    rw [List.map_map, List.map_map]
    rfl

theorem combos_keys_nodup (cfg : SimpleConfig)
    (hclnd : (cfg.clClients.map Prod.fst).Nodup)
    (helnd : (cfg.elClients.map Prod.fst).Nodup) :
    ((combos cfg).map fun c => (c.clName, c.elName)).Nodup := by
  have hbridge : (combos cfg).map (fun c => (c.clName, c.elName)) =
      (cfg.clClients.flatMap fun c => cfg.elClients.map fun e => (c, e)).map
        (fun q => (q.1.1, q.2.1)) := by
    conv_rhs => rw [← List.enum_map_snd
      (cfg.clClients.flatMap fun c => cfg.elClients.map fun e => (c, e))]
    rw [List.map_map]
    unfold combos
    rw [List.map_map]
    rfl
  rw [hbridge, cross_map_names]
  exact hclnd.product helnd

theorem combos_key_inj (cfg : SimpleConfig)
    (hclnd : (cfg.clClients.map Prod.fst).Nodup)
    (helnd : (cfg.elClients.map Prod.fst).Nodup) :
    ∀ c ∈ combos cfg, ∀ c' ∈ combos cfg,
      (c.clName, c.elName) = (c'.clName, c'.elName) → c = c' :=
  fun _ hc _ hc' =>
    List.inj_on_of_nodup_map (combos_keys_nodup cfg hclnd helnd) hc hc'

theorem remaindersSorted_length (cfg : SimpleConfig) (t : NodeType) :
    (remaindersSorted cfg t).length = (combos cfg).length := by
  have h1 : (remaindersSorted cfg t).length = (sortedCombinations cfg t).length :=
    stableSort_length _ _
  have h2 : (sortedCombinations cfg t).length = (combos cfg).length :=
    stableSort_length _ _
  rw [h1, h2]

theorem remaindersSorted_perm_combos (cfg : SimpleConfig) (t : NodeType) :
    (remaindersSorted cfg t).Perm (combos cfg) :=
  (stableSort_perm _ _).trans (stableSort_perm _ _)

theorem sum_award_indicator (cfg : SimpleConfig) (t : NodeType)
    (hcl : (cfg.clClients.map Prod.snd).sum = 1)
    (hel : (cfg.elClients.map Prod.snd).sum = 1)
    (hclnn : ∀ p ∈ cfg.clClients, 0 ≤ p.2)
    (helnn : ∀ p ∈ cfg.elClients, 0 ≤ p.2)
    (hclnd : (cfg.clClients.map Prod.fst).Nodup)
    (helnd : (cfg.elClients.map Prod.fst).Nodup) :
    ((remaindersSorted cfg t).map fun c =>
      (if (c.clName, c.elName) ∈ awardedKeys cfg t then (1:ℤ) else 0)).sum =
      remainingMachines cfg t := by
  by_cases hr : 0 < remainingMachines cfg t
  · have hkeys : awardedKeys cfg t =
        ((remaindersSorted cfg t).take (remainingMachines cfg t).toNat).map
          fun c => (c.clName, c.elName) := by
      unfold awardedKeys
      rw [if_pos hr]
    have hrlen : (remainingMachines cfg t).toNat ≤ (remaindersSorted cfg t).length := by
      rw [remaindersSorted_length]
      have := remainingMachines_le_length cfg t hcl hel hclnn helnn
      omega
    have hnodup : (remaindersSorted cfg t).Nodup :=
      (remaindersSorted_perm_combos cfg t).nodup_iff.mpr (combos_nodup cfg)
    have hdisj : List.Disjoint
        ((remaindersSorted cfg t).take (remainingMachines cfg t).toNat)
        ((remaindersSorted cfg t).drop (remainingMachines cfg t).toNat) := by
      have h2 := hnodup
      rw [← List.take_append_drop (remainingMachines cfg t).toNat
        (remaindersSorted cfg t), List.nodup_append] at h2
      exact h2.2.2
    conv_lhs => rw [← List.take_append_drop (remainingMachines cfg t).toNat
      (remaindersSorted cfg t)]
    rw [List.map_append, List.sum_append]
    have htake : (((remaindersSorted cfg t).take (remainingMachines cfg t).toNat).map
        fun c => (if (c.clName, c.elName) ∈ awardedKeys cfg t then (1:ℤ) else 0)) =
        ((remaindersSorted cfg t).take (remainingMachines cfg t).toNat).map
          fun _ => (1:ℤ) := by
      refine List.map_congr_left ?_
      intro c hc
      rw [if_pos]
      rw [hkeys]
      exact List.mem_map_of_mem _ hc
    have hdrop : (((remaindersSorted cfg t).drop (remainingMachines cfg t).toNat).map
        fun c => (if (c.clName, c.elName) ∈ awardedKeys cfg t then (1:ℤ) else 0)) =
        ((remaindersSorted cfg t).drop (remainingMachines cfg t).toNat).map
          fun _ => (0:ℤ) := by
      refine List.map_congr_left ?_
      intro c hc
      rw [if_neg]
      rw [hkeys]
      intro hmem
      rcases List.mem_map.mp hmem with ⟨c2, hc2, hkey⟩
      have hcc : c ∈ combos cfg :=
        (remaindersSorted_perm_combos cfg t).mem_iff.mp (List.mem_of_mem_drop hc)
      have hcc2 : c2 ∈ combos cfg :=
        (remaindersSorted_perm_combos cfg t).mem_iff.mp (List.mem_of_mem_take hc2)
      have heq : c2 = c := combos_key_inj cfg hclnd helnd c2 hcc2 c hcc hkey
      rw [heq] at hc2
      exact hdisj hc2 hc
    rw [htake, hdrop]
    have h1 : (((remaindersSorted cfg t).take (remainingMachines cfg t).toNat).map
        fun _ => (1:ℤ)).sum =
        (((remaindersSorted cfg t).take (remainingMachines cfg t).toNat).length : ℤ) := by
      simp
    have h2 : (((remaindersSorted cfg t).drop (remainingMachines cfg t).toNat).map
        fun _ => (0:ℤ)).sum = 0 := by
      simp
    rw [h1, h2, List.length_take]
    have hmin : min (remainingMachines cfg t).toNat (remaindersSorted cfg t).length =
        (remainingMachines cfg t).toNat := Nat.min_eq_left hrlen
    rw [hmin]
    omega
  · have hr0 : remainingMachines cfg t = 0 := by
      have := remainingMachines_nonneg cfg t hcl hel hclnn helnn
      omega
    have hkeys : awardedKeys cfg t = [] := by
      unfold awardedKeys
      rw [if_neg hr]
    have hzero : ((remaindersSorted cfg t).map fun c =>
        (if (c.clName, c.elName) ∈ awardedKeys cfg t then (1:ℤ) else 0)) =
        (remaindersSorted cfg t).map fun _ => (0:ℤ) := by
      refine List.map_congr_left ?_
      intro c _
      rw [hkeys]
      simp
    rw [hzero, hr0]
    simp

theorem sum_machinesOfCell (cfg : SimpleConfig) (t : NodeType)
    (hcl : (cfg.clClients.map Prod.snd).sum = 1)
    (hel : (cfg.elClients.map Prod.snd).sum = 1)
    (hclnn : ∀ p ∈ cfg.clClients, 0 ≤ p.2)
    (helnn : ∀ p ∈ cfg.elClients, 0 ≤ p.2)
    (hclnd : (cfg.clClients.map Prod.fst).Nodup)
    (helnd : (cfg.elClients.map Prod.fst).Nodup) :
    ((sortedCombinations cfg t).map fun c => machinesOfCell cfg t c).sum =
      (cfg.machineCounts t : ℤ) := by
  unfold machinesOfCell
  rw [List.sum_map_add]
  have hind : ((sortedCombinations cfg t).map fun c =>
      (if (c.clName, c.elName) ∈ awardedKeys cfg t then (1:ℤ) else 0)).sum =
      ((remaindersSorted cfg t).map fun c =>
        (if (c.clName, c.elName) ∈ awardedKeys cfg t then (1:ℤ) else 0)).sum :=
    (stableSort_map_sum _ _ _).symm
  rw [hind, sum_award_indicator cfg t hcl hel hclnn helnn hclnd helnd]
  unfold remainingMachines flooredTotal
  omega

theorem machinesOfCell_nonneg (cfg : SimpleConfig) (t : NodeType)
    (hclnn : ∀ p ∈ cfg.clClients, 0 ≤ p.2)
    (helnn : ∀ p ∈ cfg.elClients, 0 ≤ p.2) :
    ∀ c ∈ combos cfg, 0 ≤ machinesOfCell cfg t c := by
  intro c hc
  unfold machinesOfCell
  have h1 : 0 ≤ pyint (idealMachines cfg t c) := by
    rw [pyint_of_nonneg (idealMachines_nonneg hclnn helnn c hc)]
    exact Int.floor_nonneg.mpr (idealMachines_nonneg hclnn helnn c hc)
  split <;> omega

theorem filterMap_machineSum (cfg : SimpleConfig) (t : NodeType) :
    ∀ L : List Cell, (∀ c ∈ L, 0 ≤ machinesOfCell cfg t c) →
    listMachineSum (L.filterMap fun c =>
      if 0 < machinesOfCell cfg t c then
        some ⟨c.clName, c.elName, t, machinesOfCell cfg t c, cellValidators cfg t c⟩
      else none) = (L.map fun c => machinesOfCell cfg t c).sum := by
  intro L
  induction L with
  | nil => intro _; rfl
  | cons c tl ih =>
    intro h
    have htl := ih fun d hd => h d (List.mem_cons_of_mem c hd)
    by_cases hc : 0 < machinesOfCell cfg t c
    · have hstep : List.filterMap (fun d =>
          if 0 < machinesOfCell cfg t d then
            some (⟨d.clName, d.elName, t, machinesOfCell cfg t d,
              cellValidators cfg t d⟩ : Alloc)
          else none) (c :: tl) =
          (⟨c.clName, c.elName, t, machinesOfCell cfg t c,
            cellValidators cfg t c⟩ : Alloc) ::
          List.filterMap (fun d =>
            if 0 < machinesOfCell cfg t d then
              some (⟨d.clName, d.elName, t, machinesOfCell cfg t d,
                cellValidators cfg t d⟩ : Alloc)
            else none) tl := by
        rw [List.filterMap_cons]
        rw [if_pos hc]
      rw [hstep]
      unfold listMachineSum at htl ⊢
      simp only [List.map_cons, List.sum_cons]
      rw [htl]
    · have hstep : List.filterMap (fun d =>
          if 0 < machinesOfCell cfg t d then
            some (⟨d.clName, d.elName, t, machinesOfCell cfg t d,
              cellValidators cfg t d⟩ : Alloc)
          else none) (c :: tl) =
          List.filterMap (fun d =>
            if 0 < machinesOfCell cfg t d then
              some (⟨d.clName, d.elName, t, machinesOfCell cfg t d,
                cellValidators cfg t d⟩ : Alloc)
            else none) tl := by
        rw [List.filterMap_cons]
        rw [if_neg hc]
      rw [hstep]
      rw [htl, List.map_cons, List.sum_cons]
      have : machinesOfCell cfg t c = 0 := by
        have := h c (List.mem_cons_self c tl)
        omega
      rw [this]
      ring

theorem tierAllocs_machineSum (cfg : SimpleConfig) (t : NodeType)
    (hcl : (cfg.clClients.map Prod.snd).sum = 1)
    (hel : (cfg.elClients.map Prod.snd).sum = 1)
    (hclnn : ∀ p ∈ cfg.clClients, 0 ≤ p.2)
    (helnn : ∀ p ∈ cfg.elClients, 0 ≤ p.2)
    (hclnd : (cfg.clClients.map Prod.fst).Nodup)
    (helnd : (cfg.elClients.map Prod.fst).Nodup) :
    listMachineSum (tierAllocs cfg t) = (cfg.machineCounts t : ℤ) := by
  unfold tierAllocs
  by_cases hz : cfg.machineCounts t = 0
  · rw [if_pos hz, hz]
    rfl
  · rw [if_neg hz]
    rw [filterMap_machineSum cfg t (sortedCombinations cfg t) fun c hc =>
      machinesOfCell_nonneg cfg t hclnn helnn c (mem_stableSort.mp hc)]
    exact sum_machinesOfCell cfg t hcl hel hclnn helnn hclnd helnd

theorem addValidatorsAt_machines_map : ∀ (l : List Alloc) (i : ℕ) (d : ℤ),
    (addValidatorsAt l i d).map Alloc.machines = l.map Alloc.machines := by
  intro l
  induction l with
  | nil => intro i d; rfl
  | cons a tl ih =>
    intro i d
    cases i with
    | zero => rfl
    | succ n =>
      show a.machines :: (addValidatorsAt tl n d).map Alloc.machines =
        a.machines :: tl.map Alloc.machines
      rw [ih]

theorem adjustTier_machines_map (cfg : SimpleConfig) (t : NodeType) (l : List Alloc) :
    (adjustTier cfg t l).map Alloc.machines = l.map Alloc.machines := by
  unfold adjustTier
  rw [List.map_map]
  rfl

theorem optimizeTier_machineSum (cfg : SimpleConfig) (t : NodeType) (l : List Alloc) :
    listMachineSum (optimizeTier cfg t l) = listMachineSum l := by
  unfold optimizeTier listMachineSum
  split
  · rfl
  · split
    · rfl
    · split
      · rw [adjustTier_machines_map]
      · rw [addValidatorsAt_machines_map, adjustTier_machines_map]

/-! ## Claim theorems -/

/-- **C1** counterexample: on the valid configuration `cfgSplitShort` the
percentage script's default tier ends with 4 validators while the tier's
target `floor(total_validators * validator_share)` is 5 — the claimed hard
invariant fails for `apply_intelligent_rounding`, which has no final
correction pass. -/
theorem c1_counterexample :
    listValidatorSum ((roundedAllocations cfgSplitShort).filter
      fun a => a.nodeType = NodeType.default) = 4 ∧
    ⌊(cfgSplitShort.totalValidators : ℚ) *
      cfgSplitShort.validatorDistribution NodeType.default⌋ = 5 ∧
    listValidatorSum ((roundedAllocations cfgSplitShort).filter
      fun a => a.nodeType = NodeType.default) ≠
      ⌊(cfgSplitShort.totalValidators : ℚ) *
        cfgSplitShort.validatorDistribution NodeType.default⌋ :=
  ⟨by decide, by decide, by decide⟩

/-- **C1** (amended): in the simple script, for every configuration and every
tier holding at least one allocation (and a nonnegative validator target),
the sum of validators over that tier's final allocations after
`optimize_validator_distribution` equals `floor(total_validators *
validator_share)` exactly.  The percentage script has no such correction and
can fall short (see the counterexample). -/
theorem c1_simple_tier_validator_sum_exact (cfg : SimpleConfig) (t : NodeType)
    (hne : ((calculateAllocations cfg).filter fun a => a.nodeType = t) ≠ [])
    (hnn : 0 ≤ (cfg.totalValidators : ℚ) * cfg.validatorDistribution t) :
    listValidatorSum ((simpleFinal cfg).filter fun a => a.nodeType = t) =
      ⌊(cfg.totalValidators : ℚ) * cfg.validatorDistribution t⌋ := by
  rw [simpleFinal_filter]
  rw [calculateAllocations_filter] at hne
  rw [optimizeTier_sum cfg t _ hne]
  rw [validatorsByType, pyint_of_nonneg hnn]

/-- **C1** witness: the amended theorem applied to `cfgSimpleZeroTier`'s
default tier. -/
theorem c1_witness :
    (((calculateAllocations cfgSimpleZeroTier).filter
        fun a => a.nodeType = NodeType.default) ≠ [] ∧
      0 ≤ (cfgSimpleZeroTier.totalValidators : ℚ) *
        cfgSimpleZeroTier.validatorDistribution NodeType.default) ∧
    listValidatorSum ((simpleFinal cfgSimpleZeroTier).filter
        fun a => a.nodeType = NodeType.default) =
      ⌊(cfgSimpleZeroTier.totalValidators : ℚ) *
        cfgSimpleZeroTier.validatorDistribution NodeType.default⌋ :=
  ⟨⟨by decide, by decide⟩,
    c1_simple_tier_validator_sum_exact cfgSimpleZeroTier NodeType.default
      (by decide) (by decide)⟩

/-- **C2** counterexample: on the valid configuration `cfgSplitShort` the
percentage script's default tier receives 2 machines while its target
`round(total_machines * machine_share)` is 5 — the small-target branch caps
every combination at one machine. -/
theorem c2_counterexample :
    listMachineSum ((roundedAllocations cfgSplitShort).filter
      fun a => a.nodeType = NodeType.default) = 2 ∧
    typeTargetMachines cfgSplitShort NodeType.default = 5 ∧
    listMachineSum ((roundedAllocations cfgSplitShort).filter
      fun a => a.nodeType = NodeType.default) ≠
      typeTargetMachines cfgSplitShort NodeType.default :=
  ⟨by decide, by decide, by decide⟩

/-- **C2** (amended): in the simple script, for every configuration whose
client shares are nonnegative and sum to 1 in both tables and whose client
names are distinct (Python dict keys), the machine sum of each tier's final
allocations equals the tier's fixed machine count exactly — the
largest-remainder pass distributes precisely the residue left by the floor
pass.  The percentage variant can miss its target (see the counterexample). -/
theorem c2_simple_tier_machine_sum_exact (cfg : SimpleConfig) (t : NodeType)
    (hcl : (cfg.clClients.map Prod.snd).sum = 1)
    (hel : (cfg.elClients.map Prod.snd).sum = 1)
    (hclnn : ∀ p ∈ cfg.clClients, 0 ≤ p.2)
    (helnn : ∀ p ∈ cfg.elClients, 0 ≤ p.2)
    (hclnd : (cfg.clClients.map Prod.fst).Nodup)
    (helnd : (cfg.elClients.map Prod.fst).Nodup) :
    listMachineSum ((simpleFinal cfg).filter fun a => a.nodeType = t) =
      (cfg.machineCounts t : ℤ) := by
  rw [simpleFinal_filter, optimizeTier_machineSum]
  exact tierAllocs_machineSum cfg t hcl hel hclnn helnn hclnd helnd

/-- **C2** witness: the amended theorem applied to `cfgSimpleZeroTier`'s
default tier (2 machines). -/
theorem c2_witness :
    ((cfgSimpleZeroTier.clClients.map Prod.snd).sum = 1 ∧
      (cfgSimpleZeroTier.elClients.map Prod.snd).sum = 1 ∧
      (∀ p ∈ cfgSimpleZeroTier.clClients, 0 ≤ p.2) ∧
      (∀ p ∈ cfgSimpleZeroTier.elClients, 0 ≤ p.2) ∧
      (cfgSimpleZeroTier.clClients.map Prod.fst).Nodup ∧
      (cfgSimpleZeroTier.elClients.map Prod.fst).Nodup) ∧
    listMachineSum ((simpleFinal cfgSimpleZeroTier).filter
        fun a => a.nodeType = NodeType.default) =
      (cfgSimpleZeroTier.machineCounts NodeType.default : ℤ) :=
  ⟨⟨by decide, by decide, by decide, by decide, by decide, by decide⟩,
    c2_simple_tier_machine_sum_exact cfgSimpleZeroTier NodeType.default
      (by decide) (by decide) (by decide) (by decide) (by decide) (by decide)⟩

/-- **C3** counterexample: on the valid configuration `cfgSimple13` the
correction pass leaves one allocation with `-1` validators; the renderer
skips it, so the emitted ranges tile `[0, 14)` while the sum of validators
over all final allocations is `13` — index 13 is covered by a block although
the claimed union `[0, 13)` excludes it. -/
theorem c3_counterexample :
    (renderBlocks (simpleFinal cfgSimple13)).map (fun b => (b.vStart, b.vEnd)) =
      [(0,2),(2,4),(4,6),(6,8),(8,10),(10,12),(12,14)] ∧
    listValidatorSum (simpleFinal cfgSimple13) = 13 ∧
    ∃ b ∈ renderBlocks (simpleFinal cfgSimple13), b.vStart ≤ 13 ∧ 13 < b.vEnd :=
  ⟨by decide, by decide, by decide⟩

/-- **C3** (amended): for every allocation list, the renderer's blocks are
chained (first start `0`, each start equals the previous end, each end is
start plus validators), pairwise non-overlapping, and their union is exactly
`[0, S)` where `S` is the sum of validators over the *emitted* (surviving)
allocations — which equals the sum over all final allocations only when no
allocation is skipped. -/
theorem c3_renderer_ranges (l : List Alloc) :
    chainedFrom 0 (renderBlocks l) ∧
    (renderBlocks l).Pairwise (fun p q => p.vEnd ≤ q.vStart) ∧
    endFrom 0 (renderBlocks l) = listValidatorSum (emittedAllocs l) :=
  ⟨renderBlocks_chained l,
    chained_disjoint _ 0 (renderBlocks_chained l) (renderBlocks_validators_pos l),
    renderBlocks_end l⟩


/-! ### Ranking lemmas for the second pass of the simple script -/

theorem sortedCombinations_pairwise (cfg : SimpleConfig) (t : NodeType) :
    (sortedCombinations cfg t).Pairwise fun a b =>
      idealMachines cfg t b < idealMachines cfg t a ∨
      (idealMachines cfg t b = idealMachines cfg t a ∧ a.idx < b.idx) := by
  have aux : ∀ l : List Cell, (l.Pairwise fun a b => a.idx < b.idx) →
      (stableSort (bfIdeal cfg t) l).Pairwise fun a b =>
        idealMachines cfg t b < idealMachines cfg t a ∨
        (idealMachines cfg t b = idealMachines cfg t a ∧ a.idx < b.idx) := by
    intro l
    induction l with
    | nil => intro _; exact List.Pairwise.nil
    | cons x xs ih =>
      intro hl
      rcases List.pairwise_cons.mp hl with ⟨hx, hxs⟩
      have hsort := ih hxs
      refine pairwise_insertStable hsort ?_ ?_ ?_
      · intro y hy hbf
        have hle : idealMachines cfg t y ≤ idealMachines cfg t x :=
          of_decide_eq_true hbf
        rcases lt_or_eq_of_le hle with h1 | h1
        · exact Or.inl h1
        · exact Or.inr ⟨h1, hx y (mem_stableSort.mp hy)⟩
      · intro y hy hbf
        have hlt : idealMachines cfg t x < idealMachines cfg t y :=
          not_le.mp (of_decide_eq_false hbf)
        exact Or.inl hlt
      · intro y hy z hz hbf hP
        have hle : idealMachines cfg t y ≤ idealMachines cfg t x :=
          of_decide_eq_true hbf
        rcases hP with h1 | ⟨h1, _⟩
        · exact Or.inl (lt_of_lt_of_le h1 hle)
        · rcases lt_or_eq_of_le hle with h2 | h2
          · exact Or.inl (lt_of_le_of_lt (le_of_eq h1) h2)
          · exact Or.inr ⟨h1.trans h2, hx z (mem_stableSort.mp hz)⟩
  exact aux (combos cfg) (combos_pairwise_idx cfg)

theorem remaindersSorted_pairwise (cfg : SimpleConfig) (t : NodeType) :
    (remaindersSorted cfg t).Pairwise fun a b =>
      fracRemainder cfg t b < fracRemainder cfg t a ∨
      (fracRemainder cfg t b = fracRemainder cfg t a ∧
        (idealMachines cfg t b < idealMachines cfg t a ∨
          (idealMachines cfg t b = idealMachines cfg t a ∧ a.idx < b.idx))) := by
  have aux : ∀ l : List Cell, (l.Pairwise fun a b =>
      idealMachines cfg t b < idealMachines cfg t a ∨
      (idealMachines cfg t b = idealMachines cfg t a ∧ a.idx < b.idx)) →
      (stableSort (bfFrac cfg t) l).Pairwise fun a b =>
        fracRemainder cfg t b < fracRemainder cfg t a ∨
        (fracRemainder cfg t b = fracRemainder cfg t a ∧
          (idealMachines cfg t b < idealMachines cfg t a ∨
            (idealMachines cfg t b = idealMachines cfg t a ∧ a.idx < b.idx))) := by
    intro l
    induction l with
    | nil => intro _; exact List.Pairwise.nil
    | cons x xs ih =>
      intro hl
      rcases List.pairwise_cons.mp hl with ⟨hx, hxs⟩
      have hsort := ih hxs
      refine pairwise_insertStable hsort ?_ ?_ ?_
      · intro y hy hbf
        have hle : fracRemainder cfg t y ≤ fracRemainder cfg t x :=
          of_decide_eq_true hbf
        rcases lt_or_eq_of_le hle with h1 | h1
        · exact Or.inl h1
        · exact Or.inr ⟨h1, hx y (mem_stableSort.mp hy)⟩
      · intro y hy hbf
        exact Or.inl (not_le.mp (of_decide_eq_false hbf))
      · intro y hy z hz hbf hP
        have hle : fracRemainder cfg t y ≤ fracRemainder cfg t x :=
          of_decide_eq_true hbf
        rcases hP with h1 | ⟨h1, _⟩
        · exact Or.inl (lt_of_lt_of_le h1 hle)
        · rcases lt_or_eq_of_le hle with h2 | h2
          · exact Or.inl (lt_of_le_of_lt (le_of_eq h1) h2)
          · exact Or.inr ⟨h1.trans h2, hx z (mem_stableSort.mp hz)⟩
  exact aux (sortedCombinations cfg t) (sortedCombinations_pairwise cfg t)

theorem lexBefore_eq_true_iff (cfg : SimpleConfig) (t : NodeType) (x y : Cell) :
    lexBefore cfg t x y = true ↔
      (fracRemainder cfg t y < fracRemainder cfg t x ∨
        (fracRemainder cfg t y = fracRemainder cfg t x ∧
          (idealMachines cfg t y < idealMachines cfg t x ∨
            (idealMachines cfg t y = idealMachines cfg t x ∧ x.idx < y.idx)))) := by
  simp [lexBefore]

theorem lexBefore_asymm (cfg : SimpleConfig) (t : NodeType) :
    ∀ a b, lexBefore cfg t a b = true → lexBefore cfg t b a = false := by
  intro a b hab
  by_contra hc
  rw [Bool.not_eq_false] at hc
  rw [lexBefore_eq_true_iff] at hab hc
  rcases hab with h1 | ⟨h1, h2 | ⟨h2, h3⟩⟩ <;>
    rcases hc with g1 | ⟨g1, g2 | ⟨g2, g3⟩⟩ <;>
    linarith

theorem remaindersSorted_pairwise_lex (cfg : SimpleConfig) (t : NodeType) :
    (remaindersSorted cfg t).Pairwise fun a b => lexBefore cfg t a b = true := by
  refine (remaindersSorted_pairwise cfg t).imp ?_
  intro a b h
  rw [lexBefore_eq_true_iff]
  exact h

/-- **C4** counterexample: with consensus table `[zeta: 1/2, alpha: 1/2]` the
two cells tie on fractional remainder and raw value; the code awards the one
extra machine to `zeta` (configuration order), while the ranking claimed by
the spec — lexical order of `(cl, el)` on full ties — puts the `alpha` cell
first. -/
theorem c4_counterexample :
    machinesOfCell cfgSimpleTie NodeType.default ⟨"zeta", "geth", 1/2, 1, 0⟩ = 1 ∧
    machinesOfCell cfgSimpleTie NodeType.default ⟨"alpha", "geth", 1/2, 1, 1⟩ = 0 ∧
    remainingMachines cfgSimpleTie NodeType.default = 1 ∧
    (specLexRanking cfgSimpleTie NodeType.default).head? =
      some ⟨"alpha", "geth", 1/2, 1, 1⟩ :=
  ⟨by decide, by decide, by decide, by decide⟩

/-- **C4** (amended): for every configuration with distinct client names,
each cell's machine count is its floored ideal plus one extra machine
exactly when its rank — by descending fractional remainder, then descending
raw value, then *generation order* of the `(cl, el)` combinations (not
lexical order) — is below `remaining`. -/
theorem c4_award_by_rank (cfg : SimpleConfig) (t : NodeType)
    (hclnd : (cfg.clClients.map Prod.fst).Nodup)
    (helnd : (cfg.elClients.map Prod.fst).Nodup) :
    ∀ c ∈ combos cfg,
      machinesOfCell cfg t c = pyint (idealMachines cfg t c) +
        (if (lexRank cfg t c : ℤ) < remainingMachines cfg t then 1 else 0) := by
  intro c hc
  unfold machinesOfCell
  congr 1
  by_cases hr : 0 < remainingMachines cfg t
  · have hkeys : awardedKeys cfg t =
        ((remaindersSorted cfg t).take (remainingMachines cfg t).toNat).map
          fun c => (c.clName, c.elName) := by
      unfold awardedKeys
      rw [if_pos hr]
    have hcL : c ∈ remaindersSorted cfg t :=
      (remaindersSorted_perm_combos cfg t).mem_iff.mpr hc
    have hmem : (c.clName, c.elName) ∈ awardedKeys cfg t ↔
        c ∈ (remaindersSorted cfg t).take (remainingMachines cfg t).toNat := by
      rw [hkeys]
      constructor
      · intro hk
        rcases List.mem_map.mp hk with ⟨c2, hc2, hkey⟩
        have hcc2 : c2 ∈ combos cfg :=
          (remaindersSorted_perm_combos cfg t).mem_iff.mp (List.mem_of_mem_take hc2)
        have heq : c2 = c := combos_key_inj cfg hclnd helnd c2 hcc2 c hc hkey
        rw [heq] at hc2
        exact hc2
      · intro hk
        exact List.mem_map_of_mem _ hk
    have hcnt := mem_take_iff_countP_lt (remaindersSorted_pairwise_lex cfg t)
      (lexBefore_asymm cfg t) hcL (remainingMachines cfg t).toNat
    have hcntP : (remaindersSorted cfg t).countP (fun d => lexBefore cfg t d c) =
        lexRank cfg t c :=
      (remaindersSorted_perm_combos cfg t).countP_eq _
    rw [hcntP] at hcnt
    have hiff : (c.clName, c.elName) ∈ awardedKeys cfg t ↔
        (lexRank cfg t c : ℤ) < remainingMachines cfg t := by
      rw [hmem, hcnt]
      omega
    rw [if_congr hiff rfl rfl]
  · have hkeys : awardedKeys cfg t = [] := by
      unfold awardedKeys
      rw [if_neg hr]
    have hiff : (c.clName, c.elName) ∈ awardedKeys cfg t ↔
        (lexRank cfg t c : ℤ) < remainingMachines cfg t := by
      rw [hkeys]
      constructor
      · intro hk
        exact absurd hk (List.not_mem_nil _)
      · intro hk
        exfalso
        omega
    rw [if_congr hiff rfl rfl]

/-- **C4** witness: the amended theorem applied to `cfgSimpleTie` and its
first cell. -/
theorem c4_witness :
    ((cfgSimpleTie.clClients.map Prod.fst).Nodup ∧
      (cfgSimpleTie.elClients.map Prod.fst).Nodup ∧
      (⟨"zeta", "geth", 1/2, 1, 0⟩ : Cell) ∈ combos cfgSimpleTie) ∧
    machinesOfCell cfgSimpleTie NodeType.default ⟨"zeta", "geth", 1/2, 1, 0⟩ =
      pyint (idealMachines cfgSimpleTie NodeType.default ⟨"zeta", "geth", 1/2, 1, 0⟩) +
        (if (lexRank cfgSimpleTie NodeType.default ⟨"zeta", "geth", 1/2, 1, 0⟩ : ℤ) <
            remainingMachines cfgSimpleTie NodeType.default then 1 else 0) :=
  ⟨⟨by decide, by decide, by decide⟩,
    c4_award_by_rank cfgSimpleTie NodeType.default (by decide) (by decide)
      ⟨"zeta", "geth", 1/2, 1, 0⟩ (by decide)⟩

/-! ### Orphan-redistribution lemmas for the percentage script -/

theorem enum_pairwise_fst {γ : Type} (l : List γ) :
    l.enum.Pairwise fun p q => p.1 < q.1 := by
  have h2 := List.pairwise_lt_range l.length
  rw [← List.enum_map_fst l, List.pairwise_map] at h2
  exact h2

theorem sortedTypeAllocs_pairwise (cfg : SplitConfig) (t : NodeType) :
    (sortedTypeAllocs cfg t).Pairwise fun a b => b.machines ≤ a.machines := by
  have aux : ∀ l : List RawAlloc,
      (stableSort splitBf l).Pairwise fun a b => b.machines ≤ a.machines := by
    intro l
    induction l with
    | nil => exact List.Pairwise.nil
    | cons x xs ih =>
      refine pairwise_insertStable ih ?_ ?_ ?_
      · intro y _ hbf
        exact of_decide_eq_true hbf
      · intro y _ hbf
        exact le_of_lt (not_le.mp (of_decide_eq_false hbf))
      · intro y _ z _ hbf hP
        exact le_trans hP (of_decide_eq_true hbf)
  exact aux _

theorem threshStep_nonneg (c x : ℚ) :
    (0:ℤ) ≤ (if c ≤ x then max 1 (pyround x) else 0) := by
  split
  · exact le_trans zero_le_one (le_max_left _ _)
  · exact le_refl 0

theorem threshStep_mono (c : ℚ) {x y : ℚ} (h : x ≤ y) :
    (if c ≤ x then max 1 (pyround x) else 0) ≤
      (if c ≤ y then max 1 (pyround y) else 0) := by
  by_cases hx : c ≤ x
  · rw [if_pos hx, if_pos (le_trans hx h)]
    exact max_le_max (le_refl 1) (pyround_mono h)
  · rw [if_neg hx]
    exact threshStep_nonneg c y

theorem thresholdMachines_nonneg (t : NodeType) (x : ℚ) :
    0 ≤ thresholdMachines t x := by
  unfold thresholdMachines
  split
  · exact threshStep_nonneg _ _
  · exact threshStep_nonneg _ _

theorem thresholdMachines_mono (t : NodeType) {x y : ℚ} (h : x ≤ y) :
    thresholdMachines t x ≤ thresholdMachines t y := by
  unfold thresholdMachines
  split
  · exact threshStep_mono _ h
  · exact threshStep_mono _ h

theorem preAssignments_pairwise (cfg : SplitConfig) (t : NodeType) :
    (preAssignments cfg t).Pairwise fun p q => q.2 ≤ p.2 := by
  unfold preAssignments
  rw [List.pairwise_map]
  exact (sortedTypeAllocs_pairwise cfg t).imp fun h => thresholdMachines_mono t h

theorem preAssignments_nonneg (cfg : SplitConfig) (t : NodeType) :
    ∀ p ∈ preAssignments cfg t, 0 ≤ p.2 := by
  intro p hp
  unfold preAssignments at hp
  rcases List.mem_map.mp hp with ⟨a, _, he⟩
  rw [← he]
  exact thresholdMachines_nonneg t a.machines

theorem topUp_mem : ∀ (d : ℤ) (l : List (RawAlloc × ℤ)), ∀ q ∈ topUp d l,
    ∃ p ∈ l, q.1 = p.1 ∧ (q.2 = p.2 ∨ (q.2 = 1 ∧ p.2 = 0)) := by
  intro d l
  induction l generalizing d with
  | nil =>
    intro q hq
    simp [topUp] at hq
  | cons pm tl ih =>
    intro q hq
    obtain ⟨a, m⟩ := pm
    simp only [topUp] at hq
    split at hq
    · rcases List.mem_cons.mp hq with h1 | h1
      · exact ⟨(a, m), List.mem_cons_self _ _, by rw [h1], Or.inl (by rw [h1])⟩
      · exact ⟨q, List.mem_cons_of_mem _ h1, rfl, Or.inl rfl⟩
    · split at hq
      · rename_i hcond
        rcases List.mem_cons.mp hq with h1 | h1
        · exact ⟨(a, m), List.mem_cons_self _ _, by rw [h1],
            Or.inr ⟨by rw [h1], hcond.2⟩⟩
        · rcases ih (d - 1) q h1 with ⟨p, hp, h2⟩
          exact ⟨p, List.mem_cons_of_mem _ hp, h2⟩
      · rcases List.mem_cons.mp hq with h1 | h1
        · exact ⟨(a, m), List.mem_cons_self _ _, by rw [h1], Or.inl (by rw [h1])⟩
        · rcases ih d q h1 with ⟨p, hp, h2⟩
          exact ⟨p, List.mem_cons_of_mem _ hp, h2⟩

theorem topUp_mono01 : ∀ (d : ℤ) (l : List (RawAlloc × ℤ)),
    (l.Pairwise fun p q => q.2 ≤ p.2) → (∀ p ∈ l, 0 ≤ p.2) →
    (topUp d l).Pairwise fun p q => q.2 ≤ p.2 ∨ p.2 = 0 := by
  intro d l
  induction l generalizing d with
  | nil =>
    intro _ _
    exact List.Pairwise.nil
  | cons pm tl ih =>
    intro hpw hnn
    obtain ⟨a, m⟩ := pm
    rcases List.pairwise_cons.mp hpw with ⟨hhead, htl⟩
    have hnntl : ∀ p ∈ tl, 0 ≤ p.2 := fun p hp => hnn p (List.mem_cons_of_mem _ hp)
    simp only [topUp]
    split
    · exact List.pairwise_cons.mpr
        ⟨fun q hq => Or.inl (hhead q hq), htl.imp fun h => Or.inl h⟩
    · split
      · rename_i hcond
        refine List.pairwise_cons.mpr ⟨?_, ih (d - 1) htl hnntl⟩
        intro q hq
        rcases topUp_mem (d - 1) tl q hq with ⟨p, hp, _, h2⟩
        have hple : p.2 ≤ m := hhead p hp
        have hp0 : p.2 = 0 := le_antisymm (hcond.2 ▸ hple) (hnntl p hp)
        left
        show q.2 ≤ (1:ℤ)
        rcases h2 with h3 | ⟨h3, _⟩
        · rw [h3, hp0]
          norm_num
        · rw [h3]
      · refine List.pairwise_cons.mpr ⟨?_, ih d htl hnntl⟩
        intro q hq
        by_cases hm : m = 0
        · exact Or.inr hm
        · left
          show q.2 ≤ m
          rcases topUp_mem d tl q hq with ⟨p, hp, _, h2⟩
          have hple : p.2 ≤ m := hhead p hp
          rcases h2 with h3 | ⟨h3, h4⟩
          · rw [h3]
            exact hple
          · rw [h3]
            have hm0 : 0 ≤ m := hnn (a, m) (List.mem_cons_self _ _)
            omega

theorem removeGo_forall₂ : ∀ (d : ℤ) (l : List (RawAlloc × ℤ)),
    List.Forall₂ (fun p q => q = p ∨ (q.1 = p.1 ∧ q.2 = 0)) l (removeGo d l) := by
  have hrefl : ∀ L : List (RawAlloc × ℤ),
      List.Forall₂ (fun p q => q = p ∨ (q.1 = p.1 ∧ q.2 = 0)) L L := by
    intro L
    induction L with
    | nil => exact List.Forall₂.nil
    | cons x xs ih => exact List.Forall₂.cons (Or.inl rfl) ih
  intro d l
  induction l generalizing d with
  | nil => exact List.Forall₂.nil
  | cons pm tl ih =>
    obtain ⟨a, m⟩ := pm
    simp only [removeGo]
    split
    · exact hrefl _
    · split
      · exact List.Forall₂.cons (Or.inr ⟨rfl, rfl⟩) (ih (d + 1))
      · exact List.Forall₂.cons (Or.inl rfl) (ih d)

theorem forall₂_dom_mem_right {R : (RawAlloc × ℤ) → (RawAlloc × ℤ) → Prop} :
    ∀ {l l' : List (RawAlloc × ℤ)}, List.Forall₂ R l l' →
      ∀ q ∈ l', ∃ p ∈ l, R p q := by
  intro l l' h
  induction h with
  | nil =>
    intro q hq
    simp at hq
  | cons hr htail ih =>
    intro q hq
    rcases List.mem_cons.mp hq with h1 | h1
    · refine ⟨_, List.mem_cons_self _ _, ?_⟩
      rw [h1]
      exact hr
    · rcases ih q h1 with ⟨p, hp, h2⟩
      exact ⟨p, List.mem_cons_of_mem _ hp, h2⟩

theorem mono01_of_forall₂ :
    ∀ {l l' : List (RawAlloc × ℤ)},
    (l.Pairwise fun p q => q.2 ≤ p.2 ∨ p.2 = 0) → (∀ p ∈ l, 0 ≤ p.2) →
    List.Forall₂ (fun p q => q = p ∨ (q.1 = p.1 ∧ q.2 = 0)) l l' →
    l'.Pairwise fun p q => q.2 ≤ p.2 ∨ p.2 = 0 := by
  intro l l' hpw hnn hf
  induction hf with
  | nil => exact List.Pairwise.nil
  | cons hr htail ih =>
    rename_i x y tl tl'
    rcases List.pairwise_cons.mp hpw with ⟨hhead, htlpw⟩
    have hnntl : ∀ p ∈ tl, 0 ≤ p.2 := fun p hp => hnn p (List.mem_cons_of_mem _ hp)
    refine List.pairwise_cons.mpr ⟨?_, ih htlpw hnntl⟩
    intro q hq
    rcases forall₂_dom_mem_right htail q hq with ⟨p, hp, h2⟩
    rcases hr with hb | ⟨_, hb2⟩
    · rw [hb]
      rcases hhead p hp with h3 | h3
      · left
        rcases h2 with h4 | ⟨_, h4⟩
        · rw [h4]
          exact h3
        · rw [h4]
          have hx0 : 0 ≤ x.2 := hnn x (List.mem_cons_self _ _)
          omega
      · exact Or.inr h3
    · exact Or.inr hb2

theorem smallPath_mono01 (cfg : SplitConfig) (t : NodeType) :
    ((sortedTypeAllocs cfg t).enum.map fun p =>
      (p.2, if (p.1 : ℤ) < typeTargetMachines cfg t then (1:ℤ) else 0)).Pairwise
      fun p q => q.2 ≤ p.2 ∨ p.2 = 0 := by
  rw [List.pairwise_map]
  refine (enum_pairwise_fst _).imp ?_
  intro p q h
  dsimp only
  by_cases hq : (q.1 : ℤ) < typeTargetMachines cfg t
  · have hp : (p.1 : ℤ) < typeTargetMachines cfg t := by
      have hlt : (p.1 : ℤ) < (q.1 : ℤ) := by exact_mod_cast h
      omega
    left
    rw [if_pos hp, if_pos hq]
  · left
    rw [if_neg hq]
    split
    · omega
    · omega

theorem machineAssignments_mono01 (cfg : SplitConfig) (t : NodeType) :
    (machineAssignments cfg t).Pairwise fun p q => q.2 ≤ p.2 ∨ p.2 = 0 := by
  unfold machineAssignments
  split
  · exact smallPath_mono01 cfg t
  · split
    · exact topUp_mono01 _ _ (preAssignments_pairwise cfg t) (preAssignments_nonneg cfg t)
    · split
      · refine mono01_of_forall₂
          ((preAssignments_pairwise cfg t).imp fun h => Or.inl h)
          (preAssignments_nonneg cfg t) ?_
        have h1 := removeGo_forall₂ (assignDiff cfg t) (preAssignments cfg t).reverse
        have h2 := List.forall₂_reverse_iff.mpr h1
        rwa [List.reverse_reverse] at h2
      · exact (preAssignments_pairwise cfg t).imp fun h => Or.inl h

theorem finTypeAllocs_pairwise (cfg : SplitConfig) (t : NodeType) :
    (finTypeAllocs cfg t).Pairwise fun a b => b.machines ≤ a.machines := by
  unfold finTypeAllocs
  rw [List.pairwise_filterMap]
  refine (machineAssignments_mono01 cfg t).imp ?_
  intro p q h x hx y hy
  split at hx
  · split at hy
    · rename_i hp hq
      rw [Option.mem_some_iff] at hx hy
      rw [← hx, ← hy]
      show q.2 ≤ p.2
      rcases h with h1 | h1
      · exact h1
      · omega
    · exact absurd hy (by simp)
  · exact absurd hx (by simp)

theorem pairwise_head_ge (L : List Alloc) (h : L ≠ [])
    (hpw : L.Pairwise fun a b => b.machines ≤ a.machines) :
    ∀ a ∈ L, a.machines ≤ (L.head h).machines := by
  intro a ha
  cases L with
  | nil => exact absurd rfl h
  | cons x tl =>
    rcases List.mem_cons.mp ha with h1 | h1
    · rw [h1, List.head_cons]
    · exact (List.pairwise_cons.mp hpw).1 a h1

theorem addValidatorsAt_zero_getElem (l : List Alloc) (d : ℤ) (i : ℕ) :
    (addValidatorsAt l 0 d)[i]? =
      if i = 0 then (l[0]?).map fun a => { a with validators := a.validators + d }
      else l[i]? := by
  cases l with
  | nil =>
    cases i with
    | zero => rfl
    | succ n => simp [addValidatorsAt]
  | cons a tl =>
    cases i with
    | zero => simp [addValidatorsAt]
    | succ n => simp [addValidatorsAt]

theorem redistributeOrphans_getElem (o : ℤ) (fin : List Alloc)
    (ho : 0 < o) (hne : fin ≠ []) :
    ∀ i : ℕ, (redistributeOrphans o fin)[i]? = (fin[i]?).map fun a =>
      { a with validators := a.validators + o / (fin.length : ℤ) +
          (if i = 0 then o % (fin.length : ℤ) else 0) } := by
  intro i
  unfold redistributeOrphans
  rw [if_pos ⟨ho, hne⟩]
  have hn : (0:ℤ) < (fin.length : ℤ) := by
    exact_mod_cast List.length_pos.mpr hne
  have hshare := orphanShare_eq o fin.length (le_of_lt ho)
  have hdm := Int.ediv_add_emod o (fin.length : ℤ)
  have hcomm : o / (fin.length : ℤ) * (fin.length : ℤ) =
      (fin.length : ℤ) * (o / (fin.length : ℤ)) := mul_comm _ _
  have hmod0 : 0 ≤ o % (fin.length : ℤ) := Int.emod_nonneg o (by omega)
  have hrem : o - orphanShare o fin.length * (fin.length : ℤ) =
      o % (fin.length : ℤ) := by
    rw [hshare]
    omega
  by_cases hr : 0 < o - orphanShare o fin.length * (fin.length : ℤ)
  · rw [if_pos hr]
    rw [addValidatorsAt_zero_getElem]
    by_cases hi : i = 0
    · rw [if_pos hi, hi, List.getElem?_map, Option.map_map]
      cases h0 : fin[0]? with
      | none => rfl
      | some a =>
        show some _ = some _
        congr 1
        have hrem2 : o - o / (fin.length : ℤ) * (fin.length : ℤ) =
            o % (fin.length : ℤ) := by
          rw [hcomm]
          linarith [hdm]
        show { a with validators := a.validators + orphanShare o fin.length +
            (o - orphanShare o fin.length * (fin.length : ℤ)) } = _
        rw [hshare, hrem2]
        simp
    · rw [if_neg hi, List.getElem?_map]
      cases h0 : fin[i]? with
      | none => rfl
      | some a =>
        show some _ = some _
        congr 1
        show { a with validators := a.validators + orphanShare o fin.length } = _
        rw [hshare]
        rw [if_neg hi]
        simp
  · rw [if_neg hr]
    rw [List.getElem?_map]
    have hmodz : o % (fin.length : ℤ) = 0 := by omega
    cases h0 : fin[i]? with
    | none => rfl
    | some a =>
      show some _ = some _
      congr 1
      show { a with validators := a.validators + orphanShare o fin.length } = _
      rw [hshare]
      by_cases hi : i = 0
      · rw [if_pos hi, hmodz]
        simp
      · rw [if_neg hi]
        simp

/-- **C5**: for every tier with a non-empty orphan pool and at least one
surviving cell, the pool is redistributed evenly: every survivor gains
`orphaned / n` (integer division) and the first survivor additionally gains
the remainder `orphaned % n`; that first survivor has the largest machine
count of the tier (the survivors are kept in descending raw-machine order,
which the integer machine assignments follow). -/
theorem c5_orphan_redistribution (cfg : SplitConfig) (t : NodeType)
    (ho : 0 < orphanedValidators cfg t)
    (hne : finTypeAllocs cfg t ≠ []) :
    (∀ i : ℕ,
      (redistributeOrphans (orphanedValidators cfg t) (finTypeAllocs cfg t))[i]? =
        ((finTypeAllocs cfg t)[i]?).map fun a =>
          { a with validators := a.validators +
              orphanedValidators cfg t / ((finTypeAllocs cfg t).length : ℤ) +
              (if i = 0 then
                orphanedValidators cfg t % ((finTypeAllocs cfg t).length : ℤ)
               else 0) }) ∧
    (∀ a ∈ finTypeAllocs cfg t,
      a.machines ≤ ((finTypeAllocs cfg t).head hne).machines) :=
  ⟨redistributeOrphans_getElem _ _ ho hne,
    pairwise_head_ge _ hne (finTypeAllocs_pairwise cfg t)⟩

/-- **C5** witness: the theorem applied to `cfgSplitOrphan`'s default tier
(orphan pool `3`, two survivors gaining `1` each, the first also the
remainder `1`). -/
theorem c5_witness :
    (0 < orphanedValidators cfgSplitOrphan NodeType.default ∧
      finTypeAllocs cfgSplitOrphan NodeType.default ≠ []) ∧
    ((∀ i : ℕ,
      (redistributeOrphans (orphanedValidators cfgSplitOrphan NodeType.default)
        (finTypeAllocs cfgSplitOrphan NodeType.default))[i]? =
        ((finTypeAllocs cfgSplitOrphan NodeType.default)[i]?).map fun a =>
          { a with validators := a.validators +
              orphanedValidators cfgSplitOrphan NodeType.default /
                ((finTypeAllocs cfgSplitOrphan NodeType.default).length : ℤ) +
              (if i = 0 then
                orphanedValidators cfgSplitOrphan NodeType.default %
                  ((finTypeAllocs cfgSplitOrphan NodeType.default).length : ℤ)
               else 0) }) ∧
    (∀ a ∈ finTypeAllocs cfgSplitOrphan NodeType.default,
      a.machines ≤ ((finTypeAllocs cfgSplitOrphan NodeType.default).head
        (by decide)).machines)) :=
  ⟨⟨by decide, by decide⟩,
    c5_orphan_redistribution cfgSplitOrphan NodeType.default (by decide) (by decide)⟩


/-- **C6**: if a tier's machine count is `0`, the simple script emits no
block for that tier, while the printed summary still reports the tier's full
validator target next to an actual count of `0` — the unallocated validators
are visible in the output, not silently dropped. -/
theorem c6_zero_machine_tier (cfg : SimpleConfig) (t : NodeType)
    (h : cfg.machineCounts t = 0) :
    (∀ b ∈ renderBlocks (simpleFinal cfg), b.nodeType ≠ t) ∧
    (simpleSummary cfg (simpleFinal cfg)).targetValidators t =
      pyint ((cfg.totalValidators : ℚ) * cfg.validatorDistribution t) ∧
    (simpleSummary cfg (simpleFinal cfg)).actualValidators t = 0 := by
  have htier : tierAllocs cfg t = [] := by
    unfold tierAllocs
    rw [if_pos h]
  have hfilter : ((simpleFinal cfg).filter fun a => a.nodeType = t) = [] := by
    rw [simpleFinal_filter, htier]
    rfl
  refine ⟨?_, rfl, ?_⟩
  · intro b hb hbt
    rcases blockWalk_source _ _ b hb with ⟨a, ha, _, hat⟩
    have ha2 : a ∈ simpleFinal cfg := mem_stableSort.mp ha
    have := List.filter_eq_nil_iff.mp hfilter a ha2
    rw [← hbt] at this
    simp [hat] at this
  · show listValidatorSum ((simpleFinal cfg).filter fun a => a.nodeType = t) = 0
    rw [hfilter]
    rfl

/-- **C6** witness: the theorem applied to `cfgSimpleZeroTier`'s `full` tier
(machine count `0`, validator target `5`). -/
theorem c6_witness :
    cfgSimpleZeroTier.machineCounts NodeType.full = 0 ∧
    ((∀ b ∈ renderBlocks (simpleFinal cfgSimpleZeroTier), b.nodeType ≠ NodeType.full) ∧
      (simpleSummary cfgSimpleZeroTier (simpleFinal cfgSimpleZeroTier)).targetValidators
        NodeType.full =
        pyint ((cfgSimpleZeroTier.totalValidators : ℚ) *
          cfgSimpleZeroTier.validatorDistribution NodeType.full) ∧
      (simpleSummary cfgSimpleZeroTier (simpleFinal cfgSimpleZeroTier)).actualValidators
        NodeType.full = 0) :=
  ⟨by decide, c6_zero_machine_tier cfgSimpleZeroTier NodeType.full (by decide)⟩

/-- **C7** counterexample: `cfgBadShares` is malformed (consensus shares sum
to `1/2`), yet the simple script runs its full allocation computation and
emits output blocks — no `ConfigurationError` or any other validation exists
anywhere in either script. -/
theorem c7_counterexample :
    validSimpleConfig cfgBadShares = false ∧
    renderBlocks (simpleFinal cfgBadShares) ≠ [] :=
  ⟨by decide, by decide⟩

/-- **C7** (amended): the scripts perform no configuration validation at
all: there are malformed configurations on which the allocation computation
proceeds to completion and produces ordinary output. -/
theorem c7_no_validation :
    ∃ cfg : SimpleConfig, validSimpleConfig cfg = false ∧
      renderBlocks (simpleFinal cfg) ≠ [] :=
  ⟨cfgBadShares, by decide, by decide⟩

/-- **C8**: both pipelines are deterministic pure functions of their
configuration — two runs with identical inputs produce identical output
(summary data and rendered block text). -/
theorem c8_deterministic (c1 c2 : SimpleConfig) (d1 d2 : SplitConfig)
    (hc : c1 = c2) (hd : d1 = d2) :
    simpleRun c1 = simpleRun c2 ∧ splitRun d1 = splitRun d2 := by
  subst hc
  subst hd
  exact ⟨rfl, rfl⟩

/-- **C8** witness: the theorem applied to two concrete configurations. -/
theorem c8_witness :
    (cfgSimpleZeroTier = cfgSimpleZeroTier ∧ cfgSplitOrphan = cfgSplitOrphan) ∧
    simpleRun cfgSimpleZeroTier = simpleRun cfgSimpleZeroTier ∧
    splitRun cfgSplitOrphan = splitRun cfgSplitOrphan :=
  ⟨⟨rfl, rfl⟩, c8_deterministic cfgSimpleZeroTier cfgSimpleZeroTier
    cfgSplitOrphan cfgSplitOrphan rfl rfl⟩

/-- **C9**: on every configuration of either script, every emitted block has
`machines > 0` and `validators > 0`: the renderer skips `machines == 0` and
non-positive validators, and both pipelines only ever hold allocations with
positive machine counts. -/
theorem c9_emitted_blocks_positive (cfg : SimpleConfig) (cfg' : SplitConfig) :
    (∀ b ∈ renderBlocks (simpleFinal cfg), 0 < b.machines ∧ 0 < b.validators) ∧
    (∀ b ∈ renderBlocks (roundedAllocations cfg'), 0 < b.machines ∧ 0 < b.validators) := by
  constructor
  · intro b hb
    rcases blockWalk_source _ _ b hb with ⟨a, ha, hm, _⟩
    refine ⟨?_, renderBlocks_validators_pos _ b hb⟩
    rw [hm]
    exact simpleFinal_machines_pos cfg a (mem_stableSort.mp ha)
  · intro b hb
    rcases blockWalk_source _ _ b hb with ⟨a, ha, hm, _⟩
    refine ⟨?_, renderBlocks_validators_pos _ b hb⟩
    rw [hm]
    exact roundedAllocations_machines_pos cfg' a (mem_stableSort.mp ha)

/-- **C10** counterexample: on the valid configuration `cfgSplitDropped` the
`full` tier has truncated validator mass `2` and no surviving cell, so the
redistribution is skipped and the tier ends with `0` validators — the pool
is dropped, not conserved. -/
theorem c10_counterexample :
    listValidatorSum ((roundedAllocations cfgSplitDropped).filter
      fun a => a.nodeType = NodeType.full) = 0 ∧
    truncatedTierSum cfgSplitDropped NodeType.full = 2 ∧
    listValidatorSum ((roundedAllocations cfgSplitDropped).filter
      fun a => a.nodeType = NodeType.full) ≠
      truncatedTierSum cfgSplitDropped NodeType.full :=
  ⟨by decide, by decide, by decide⟩

/-- **C10** (amended): for every tier with a nonnegative orphan pool, if at
least one cell survives (or the pool is empty), the redistribution step
conserves validators exactly: the post-redistribution validator sum of the
tier equals the truncated validator mass of all its cells before
redistribution. -/
theorem c10_conservation (cfg : SplitConfig) (t : NodeType)
    (ho : 0 ≤ orphanedValidators cfg t)
    (hcase : orphanedValidators cfg t = 0 ∨ finTypeAllocs cfg t ≠ []) :
    listValidatorSum ((roundedAllocations cfg).filter fun a => a.nodeType = t) =
      truncatedTierSum cfg t := by
  rw [roundedAllocations_filter, redistributeOrphans_sum _ _ ho hcase,
    truncated_eq_fin_add_orphaned]

/-- **C10** witness: the amended theorem applied to `cfgSplitOrphan`'s
default tier (orphan pool `3`, two survivors, conserved total `11`). -/
theorem c10_witness :
    (0 ≤ orphanedValidators cfgSplitOrphan NodeType.default ∧
      (orphanedValidators cfgSplitOrphan NodeType.default = 0 ∨
        finTypeAllocs cfgSplitOrphan NodeType.default ≠ [])) ∧
    listValidatorSum ((roundedAllocations cfgSplitOrphan).filter
        fun a => a.nodeType = NodeType.default) =
      truncatedTierSum cfgSplitOrphan NodeType.default :=
  ⟨⟨by decide, Or.inr (by decide)⟩,
    c10_conservation cfgSplitOrphan NodeType.default (by decide)
      (Or.inr (by decide))⟩

end SplitCalc
